import Mathlib

/-!
Verification of the GJKR distributed key generation protocol implementation
(`pkg/beacon/relay/gjkr/protocol.go`).

Big integers (`math/big.Int`) holding nonnegative protocol values are modelled
as `Nat`; values that can be negative (ID differences fed to `ModInverse`) are
modelled as `Int`.  Go maps are modelled as association lists (`List (Nat × α)`);
map iteration is list-order iteration, map reads are `lookup`.  Fallible Go
functions returning `(..., error)` are modelled with `Except String` / `Option`.
-/

namespace GJKR

/-- Go map read `m[k]`: first binding for the key wins. -/
def lookup {α : Type} (k : Nat) : List (Nat × α) → Option α
  | [] => none
  | (k₀, v) :: rest => if k₀ = k then some v else lookup k rest

/-- Go map read `m[k]` for maps whose zero value is meaningful
(a nil slice ranges as empty, so the default is `d`). -/
def lookupD {α : Type} (k : Nat) (l : List (Nat × α)) (d : α) : α :=
  (lookup k l).getD d

/-- Go map write `m[k] = v`: overwrites the binding if the key is present,
otherwise appends it. -/
def mapStore {α : Type} (k : Nat) (v : α) : List (Nat × α) → List (Nat × α)
  | [] => [(k, v)]
  | (k₀, v₀) :: rest =>
      if k₀ = k then (k₀, v) :: rest else (k₀, v₀) :: mapStore k v rest

/-- Protocol configuration: the `DKG` struct (primes `P`, `Q` with `p = 2q+1`)
together with the two generators `G`, `H` of its Pedersen VSS scheme. -/
structure DKG where
  P : Nat
  Q : Nat
  G : Nat
  H : Nat

/-- Modelled from the spec: `pedersen.VSS.CalculateCommitment` (the `pedersen`
package is not in the sources); the spec defines it as
`commit(a, b) = G^a · H^b mod P`. -/
def calculateCommitment (dkg : DKG) (a b : Nat) : Nat :=
  (dkg.G ^ a * dkg.H ^ b) % dkg.P

/-- Loop body of `evaluateMemberShare`: running accumulator `acc`, current
coefficient index `k`, remaining coefficients.  Each step performs
`result = (result + a * memberID^k) mod Q` exactly as the source does. -/
def evaluateMemberShareAux (Q j : Nat) : Nat → Nat → List Nat → Nat
  | acc, _, [] => acc
  | acc, k, a :: rest => evaluateMemberShareAux Q j ((acc + a * j ^ k) % Q) (k + 1) rest

/-- `evaluateMemberShare`: computes `s_j = Σ a_k * j^k mod q` for k in `[0..T]`. -/
def evaluateMemberShare (dkg : DKG) (memberID : Nat) (coefficients : List Nat) : Nat :=
  evaluateMemberShareAux dkg.Q memberID 0 0 coefficients

/-- Commitment generation loop of `CalculateMembersSharesAndCommitments`:
`commitments[k] = CalculateCommitment(a_k, b_k, P)` (both coefficient slices
have length `T+1`). -/
def calculateCommitments (dkg : DKG) (as bs : List Nat) : List Nat :=
  List.zipWith (fun a b => calculateCommitment dkg a b) as bs

/-- Loop body of `areSharesValidAgainstCommitments`: accumulates
`commitmentsProduct = Π (C_j[k] ^ (i^k)) mod p`, one factor per step, exactly
as the source loop (`Exp` then `Mul` then `Mod`). -/
def commitmentsProductAux (P j : Nat) : Nat → Nat → List Nat → Nat
  | acc, _, [] => acc
  | acc, k, c :: rest =>
      commitmentsProductAux P j ((acc * (c ^ j ^ k % P)) % P) (k + 1) rest

/-- `areSharesValidAgainstCommitments`: checks
`commitmentsProduct == expectedProduct` where
`commitmentsProduct = Π (C_j[k] ^ (i^k)) mod p` and
`expectedProduct = (g ^ s_ji) * (h ^ t_ji) mod p`. -/
def areSharesValidAgainstCommitments
    (dkg : DKG) (shareS shareT : Nat) (commitments : List Nat)
    (memberID : Nat) : Bool :=
  decide (calculateCommitment dkg shareS shareT
    = commitmentsProductAux dkg.P memberID 1 0 commitments)

/-- Mathematical value the `evaluateMemberShareAux` loop accumulates, before
modular reduction: `Σ a_i * j^(k+i)` over the remaining coefficients. -/
def polyEvalFrom (j k : Nat) : List Nat → Nat
  | [] => 0
  | a :: rest => a * j ^ k + polyEvalFrom j (k + 1) rest

theorem evaluateMemberShareAux_modEq (Q j : Nat) :
    ∀ (l : List Nat) (acc k : Nat),
      evaluateMemberShareAux Q j acc k l ≡ acc + polyEvalFrom j k l [MOD Q] := by
  intro l
  induction l with
  | nil =>
      intro acc k
      simp only [evaluateMemberShareAux, polyEvalFrom, Nat.add_zero]
      exact Nat.ModEq.refl _
  | cons a rest ih =>
      intro acc k
      have h₁ := ih ((acc + a * j ^ k) % Q) (k + 1)
      have h₂ : (acc + a * j ^ k) % Q + polyEvalFrom j (k + 1) rest
          ≡ acc + a * j ^ k + polyEvalFrom j (k + 1) rest [MOD Q] :=
        Nat.ModEq.add_right _ (Nat.mod_modEq _ _)
      calc evaluateMemberShareAux Q j acc k (a :: rest)
          = evaluateMemberShareAux Q j ((acc + a * j ^ k) % Q) (k + 1) rest := rfl
        _ ≡ (acc + a * j ^ k) % Q + polyEvalFrom j (k + 1) rest [MOD Q] := h₁
        _ ≡ acc + a * j ^ k + polyEvalFrom j (k + 1) rest [MOD Q] := h₂
        _ = acc + polyEvalFrom j k (a :: rest) := by
            simp [polyEvalFrom, Nat.add_assoc]

theorem evaluateMemberShare_modEq (dkg : DKG) (j : Nat) (l : List Nat) :
    evaluateMemberShare dkg j l ≡ polyEvalFrom j 0 l [MOD dkg.Q] := by
  simpa using evaluateMemberShareAux_modEq dkg.Q j l 0 0

theorem commitmentsProductAux_lt (P j : Nat) (hP : 0 < P) :
    ∀ (l : List Nat) (acc k : Nat), acc < P →
      commitmentsProductAux P j acc k l < P := by
  intro l
  induction l with
  | nil => intro acc k h; simpa [commitmentsProductAux] using h
  | cons c rest ih =>
      intro acc k _
      exact ih _ (k + 1) (Nat.mod_lt _ hP)

/-- Value of the `commitmentsProduct` loop viewed in `ZMod P`:
`Π c_i ^ (j ^ (k+i))` over the remaining commitments. -/
def commitProdFrom (P j k : Nat) : List Nat → ZMod P
  | [] => 1
  | c :: rest => (c : ZMod P) ^ j ^ k * commitProdFrom P j (k + 1) rest

theorem commitmentsProductAux_cast (P j : Nat) :
    ∀ (l : List Nat) (acc k : Nat),
      ((commitmentsProductAux P j acc k l : Nat) : ZMod P)
        = (acc : ZMod P) * commitProdFrom P j k l := by
  intro l
  induction l with
  | nil =>
      intro acc k
      simp [commitmentsProductAux, commitProdFrom]
  | cons c rest ih =>
      intro acc k
      have h := ih ((acc * (c ^ j ^ k % P)) % P) (k + 1)
      calc ((commitmentsProductAux P j acc k (c :: rest) : Nat) : ZMod P)
          = ((commitmentsProductAux P j ((acc * (c ^ j ^ k % P)) % P) (k + 1) rest
              : Nat) : ZMod P) := rfl
        _ = (((acc * (c ^ j ^ k % P)) % P : Nat) : ZMod P)
              * commitProdFrom P j (k + 1) rest := h
        _ = (acc : ZMod P) * ((c : ZMod P) ^ j ^ k * commitProdFrom P j (k + 1) rest) := by
            rw [ZMod.natCast_mod]
            push_cast [ZMod.natCast_mod]
            ring
        _ = (acc : ZMod P) * commitProdFrom P j k (c :: rest) := rfl

theorem commitProdFrom_honest (dkg : DKG) (j : Nat) :
    ∀ (as bs : List Nat) (k : Nat), as.length = bs.length →
      commitProdFrom dkg.P j k (calculateCommitments dkg as bs)
        = (dkg.G : ZMod dkg.P) ^ polyEvalFrom j k as
            * (dkg.H : ZMod dkg.P) ^ polyEvalFrom j k bs := by
  intro as
  induction as with
  | nil =>
      intro bs k hlen
      have : bs = [] := List.eq_nil_of_length_eq_zero hlen.symm
      subst this
      simp [calculateCommitments, commitProdFrom, polyEvalFrom]
  | cons a as ih =>
      intro bs k hlen
      cases bs with
      | nil => simp at hlen
      | cons b bs =>
          have hlen' : as.length = bs.length := by
            simpa using hlen
          calc commitProdFrom dkg.P j k
                (calculateCommitments dkg (a :: as) (b :: bs))
              = ((calculateCommitment dkg a b : Nat) : ZMod dkg.P) ^ j ^ k
                  * commitProdFrom dkg.P j (k + 1) (calculateCommitments dkg as bs) := rfl
            _ = ((dkg.G : ZMod dkg.P) ^ a * (dkg.H : ZMod dkg.P) ^ b) ^ j ^ k
                  * ((dkg.G : ZMod dkg.P) ^ polyEvalFrom j (k + 1) as
                      * (dkg.H : ZMod dkg.P) ^ polyEvalFrom j (k + 1) bs) := by
                rw [ih bs (k + 1) hlen']
                simp only [calculateCommitment, ZMod.natCast_mod]
                push_cast
                ring
            _ = (dkg.G : ZMod dkg.P) ^ polyEvalFrom j k (a :: as)
                  * (dkg.H : ZMod dkg.P) ^ polyEvalFrom j k (b :: bs) := by
                simp only [polyEvalFrom]
                rw [mul_pow, ← pow_mul, ← pow_mul, pow_add, pow_add]
                ring

theorem pow_eq_of_modEq_of_pow_order_one {P : Nat} (g : ZMod P) (Q : Nat)
    (hg : g ^ Q = 1) {x y : Nat} (h : x ≡ y [MOD Q]) : g ^ x = g ^ y := by
  have key : ∀ z : Nat, g ^ z = g ^ (z % Q) := by
    intro z
    conv_lhs => rw [← Nat.div_add_mod z Q]
    rw [pow_add, pow_mul, hg, one_pow, one_mul]
  have h₂ : x % Q = y % Q := h
  rw [key x, key y, h₂]

/-- C3: for every protocol config with `P = 2Q+1` and generators `G`, `H` of
order `Q`, every pair of coefficient vectors `a`, `b` of length `t+1` with
entries in `(0, Q)`, and every member ID `j`, the shares
`s = evaluateMemberShare(j, a)` and `t = evaluateMemberShare(j, b)` verify
against the commitments `C[k] = G^{a_k} * H^{b_k} mod P`:
`areSharesValidAgainstCommitments(s, t, C, j)` returns true. -/
theorem honest_shares_valid_against_commitments
    (dkg : DKG) (t : Nat) (as bs : List Nat) (j : Nat)
    (hP : dkg.P = 2 * dkg.Q + 1)
    (hG : dkg.G ^ dkg.Q % dkg.P = 1) (hH : dkg.H ^ dkg.Q % dkg.P = 1)
    (hlenA : as.length = t + 1) (hlenB : bs.length = t + 1)
    (haRange : ∀ a ∈ as, 0 < a ∧ a < dkg.Q)
    (hbRange : ∀ b ∈ bs, 0 < b ∧ b < dkg.Q) :
    areSharesValidAgainstCommitments dkg
      (evaluateMemberShare dkg j as) (evaluateMemberShare dkg j bs)
      (calculateCommitments dkg as bs) j = true := by
  have hasNonempty : as ≠ [] := by
    intro h
    rw [h] at hlenA
    simp at hlenA
  have hQ2 : 2 ≤ dkg.Q := by
    obtain ⟨a, ha⟩ := List.exists_mem_of_ne_nil as hasNonempty
    have := haRange a ha
    omega
  have hP1 : 1 < dkg.P := by omega
  have hP0 : 0 < dkg.P := by omega
  haveI : NeZero dkg.P := ⟨by omega⟩
  rw [areSharesValidAgainstCommitments, decide_eq_true_eq]
  have hexpLt : calculateCommitment dkg
      (evaluateMemberShare dkg j as) (evaluateMemberShare dkg j bs) < dkg.P :=
    Nat.mod_lt _ hP0
  have hcomLt : commitmentsProductAux dkg.P j 1 0 (calculateCommitments dkg as bs)
      < dkg.P :=
    commitmentsProductAux_lt dkg.P j hP0 _ 1 0 hP1
  have hGz : (dkg.G : ZMod dkg.P) ^ dkg.Q = 1 := by
    have hcast : ((dkg.G ^ dkg.Q % dkg.P : Nat) : ZMod dkg.P)
        = ((1 : Nat) : ZMod dkg.P) := by rw [hG]
    rw [ZMod.natCast_mod] at hcast
    push_cast at hcast
    exact hcast
  have hHz : (dkg.H : ZMod dkg.P) ^ dkg.Q = 1 := by
    have hcast : ((dkg.H ^ dkg.Q % dkg.P : Nat) : ZMod dkg.P)
        = ((1 : Nat) : ZMod dkg.P) := by rw [hH]
    rw [ZMod.natCast_mod] at hcast
    push_cast at hcast
    exact hcast
  have hcast : ((calculateCommitment dkg
        (evaluateMemberShare dkg j as) (evaluateMemberShare dkg j bs) : Nat)
          : ZMod dkg.P)
      = ((commitmentsProductAux dkg.P j 1 0 (calculateCommitments dkg as bs) : Nat)
          : ZMod dkg.P) := by
    rw [commitmentsProductAux_cast, commitProdFrom_honest dkg j as bs 0 (by omega)]
    simp only [calculateCommitment, ZMod.natCast_mod]
    push_cast
    rw [pow_eq_of_modEq_of_pow_order_one (dkg.G : ZMod dkg.P) dkg.Q hGz
        (evaluateMemberShare_modEq dkg j as)]
    rw [pow_eq_of_modEq_of_pow_order_one (dkg.H : ZMod dkg.P) dkg.Q hHz
        (evaluateMemberShare_modEq dkg j bs)]
    ring
  have hval := congrArg ZMod.val hcast
  rwa [ZMod.val_cast_of_lt hexpLt, ZMod.val_cast_of_lt hcomLt] at hval

/-- Witness for `honest_shares_valid_against_commitments` at a concrete config:
`P = 23 = 2*11+1`, `G = 4`, `H = 9` (both of order 11 mod 23), `t = 1`,
`a = [1,2]`, `b = [3,4]`, `j = 5`. -/
theorem honest_shares_valid_against_commitments_witness :
    areSharesValidAgainstCommitments ⟨23, 11, 4, 9⟩
      (evaluateMemberShare ⟨23, 11, 4, 9⟩ 5 [1, 2])
      (evaluateMemberShare ⟨23, 11, 4, 9⟩ 5 [3, 4])
      (calculateCommitments ⟨23, 11, 4, 9⟩ [1, 2] [3, 4]) 5 = true :=
  honest_shares_valid_against_commitments ⟨23, 11, 4, 9⟩ 1 [1, 2] [3, 4] 5
    (by decide) (by decide) (by decide) (by decide) (by decide)
    (by decide) (by decide)

/-- Member state consumed by `CombineMemberShares` (Phase 6): the member's own
shares `s_ii`, `t_ii` and the valid shares received from peers. -/
structure QualifiedMember where
  selfSecretShareS : Nat
  selfSecretShareT : Nat
  receivedValidSharesS : List (Nat × Nat)
  receivedValidSharesT : List (Nat × Nat)

/-- `CombineMemberShares`: `x_i = Σ s_ji mod q` and `x'_i = Σ t_ji mod q`,
starting from the member's own share and folding the received shares map in
iteration order.  Returns `(masterPrivateKeyShare, shareT)`. -/
def combineMemberShares (dkg : DKG) (qm : QualifiedMember) : Nat × Nat :=
  (qm.receivedValidSharesS.foldl (fun acc p => (acc + p.2) % dkg.Q)
      qm.selfSecretShareS,
   qm.receivedValidSharesT.foldl (fun acc p => (acc + p.2) % dkg.Q)
      qm.selfSecretShareT)

/-- `CombineGroupPublicKey` (Phase 12): starting from the member's own
individual public key, multiplies in (mod `P`) all received valid peer
individual public keys and then all reconstructed individual public keys,
in map iteration order. -/
def combineGroupPublicKey (P : Nat) (ownPublicKey : Nat)
    (peerPublicKeys : List Nat)
    (reconstructedIndividualPublicKeys : List (Nat × Nat)) : Nat :=
  let afterPeers := peerPublicKeys.foldl
    (fun acc pk => (acc * pk) % P) ownPublicKey
  reconstructedIndividualPublicKeys.foldl
    (fun acc p => (acc * p.2) % P) afterPeers

theorem foldl_add_mod (Q : Nat) (hQ : 0 < Q) :
    ∀ (l : List Nat) (init : Nat), init < Q →
      l.foldl (fun acc s => (acc + s) % Q) init = (init + l.sum) % Q := by
  intro l
  induction l with
  | nil =>
      intro init h
      simp [Nat.mod_eq_of_lt h]
  | cons s rest ih =>
      intro init h
      calc (s :: rest).foldl (fun acc s => (acc + s) % Q) init
          = rest.foldl (fun acc s => (acc + s) % Q) ((init + s) % Q) := rfl
        _ = ((init + s) % Q + rest.sum) % Q := ih _ (Nat.mod_lt _ hQ)
        _ = (init + (s :: rest).sum) % Q := by
            rw [Nat.mod_add_mod]
            simp [Nat.add_assoc]

theorem foldl_mul_mod (P : Nat) (hP : 0 < P) :
    ∀ (l : List Nat) (init : Nat), init < P →
      l.foldl (fun acc x => (acc * x) % P) init = (init * l.prod) % P := by
  intro l
  induction l with
  | nil =>
      intro init h
      simp [Nat.mod_eq_of_lt h]
  | cons x rest ih =>
      intro init h
      calc (x :: rest).foldl (fun acc x => (acc * x) % P) init
          = rest.foldl (fun acc x => (acc * x) % P) ((init * x) % P) := rfl
        _ = ((init * x) % P * rest.prod) % P := ih _ (Nat.mod_lt _ hP)
        _ = (init * (x :: rest).prod) % P := by
            rw [Nat.mod_mul_mod]
            simp [Nat.mul_assoc]

theorem combineMemberShares_eq_sum (dkg : DKG) (qm : QualifiedMember)
    (hQ : 0 < dkg.Q) (hself : qm.selfSecretShareS < dkg.Q) :
    (combineMemberShares dkg qm).1
      = (qm.selfSecretShareS + (qm.receivedValidSharesS.map Prod.snd).sum)
          % dkg.Q := by
  unfold combineMemberShares
  rw [← List.foldl_map Prod.snd (fun acc s => (acc + s) % dkg.Q)]
  exact foldl_add_mod dkg.Q hQ _ _ hself

theorem combineGroupPublicKey_eq_prod (P ownPublicKey : Nat)
    (peerPublicKeys : List Nat) (reconstructed : List (Nat × Nat))
    (hP : 0 < P) (hown : ownPublicKey < P) :
    combineGroupPublicKey P ownPublicKey peerPublicKeys reconstructed
      = (ownPublicKey * peerPublicKeys.prod
          * (reconstructed.map Prod.snd).prod) % P := by
  unfold combineGroupPublicKey
  rw [← List.foldl_map Prod.snd (fun acc x => (acc * x) % P)]
  rw [foldl_mul_mod P hP _ _ hown]
  rw [foldl_mul_mod P hP _ _ (Nat.mod_lt _ hP)]
  rw [Nat.mod_mul_mod]

/-- C6: the master private-key share computed by `CombineMemberShares` equals
`selfSecretShareS` plus the sum of all received valid shares modulo `Q`,
independently of the iteration order of the map, and the group public key
computed by `CombineGroupPublicKey` equals the product modulo `P` of the own
individual public key, the received peer individual public keys and the
reconstructed individual public keys, independently of multiplication order. -/
theorem combine_shares_and_group_key_order_independent
    (dkg : DKG) (qm₁ qm₂ : QualifiedMember)
    (P ownPublicKey : Nat) (peer₁ peer₂ : List Nat)
    (rec₁ rec₂ : List (Nat × Nat))
    (hQ : 0 < dkg.Q) (hP : 0 < P)
    (hself : qm₁.selfSecretShareS < dkg.Q) (hown : ownPublicKey < P)
    (hSelfEq : qm₂.selfSecretShareS = qm₁.selfSecretShareS)
    (hPermS : qm₁.receivedValidSharesS.Perm qm₂.receivedValidSharesS)
    (hPermPeer : peer₁.Perm peer₂) (hPermRec : rec₁.Perm rec₂) :
    (combineMemberShares dkg qm₁).1
        = (qm₁.selfSecretShareS
            + (qm₁.receivedValidSharesS.map Prod.snd).sum) % dkg.Q
      ∧ (combineMemberShares dkg qm₁).1 = (combineMemberShares dkg qm₂).1
      ∧ combineGroupPublicKey P ownPublicKey peer₁ rec₁
          = (ownPublicKey * peer₁.prod * (rec₁.map Prod.snd).prod) % P
      ∧ combineGroupPublicKey P ownPublicKey peer₁ rec₁
          = combineGroupPublicKey P ownPublicKey peer₂ rec₂ := by
  have hself₂ : qm₂.selfSecretShareS < dkg.Q := by rw [hSelfEq]; exact hself
  refine ⟨combineMemberShares_eq_sum dkg qm₁ hQ hself, ?_, ?_, ?_⟩
  · rw [combineMemberShares_eq_sum dkg qm₁ hQ hself,
        combineMemberShares_eq_sum dkg qm₂ hQ hself₂, hSelfEq,
        (hPermS.map Prod.snd).sum_eq]
  · exact combineGroupPublicKey_eq_prod P ownPublicKey peer₁ rec₁ hP hown
  · rw [combineGroupPublicKey_eq_prod P ownPublicKey peer₁ rec₁ hP hown,
        combineGroupPublicKey_eq_prod P ownPublicKey peer₂ rec₂ hP hown,
        hPermPeer.prod_eq, (hPermRec.map Prod.snd).prod_eq]

/-- Witness for `combine_shares_and_group_key_order_independent`: `Q = 11`,
`P = 23`, shares received in two different orders. -/
theorem combine_shares_and_group_key_order_independent_witness :
    (combineMemberShares ⟨23, 11, 4, 9⟩ ⟨3, 5, [(1, 7), (2, 9)], []⟩).1
        = (3 + ([(1, 7), (2, 9)].map Prod.snd).sum) % 11
      ∧ (combineMemberShares ⟨23, 11, 4, 9⟩ ⟨3, 5, [(1, 7), (2, 9)], []⟩).1
          = (combineMemberShares ⟨23, 11, 4, 9⟩ ⟨3, 5, [(2, 9), (1, 7)], []⟩).1
      ∧ combineGroupPublicKey 23 6 [4, 9] [(7, 13)]
          = (6 * [4, 9].prod * ([(7, 13)].map Prod.snd).prod) % 23
      ∧ combineGroupPublicKey 23 6 [4, 9] [(7, 13)]
          = combineGroupPublicKey 23 6 [9, 4] [(7, 13)] :=
  combine_shares_and_group_key_order_independent ⟨23, 11, 4, 9⟩
    ⟨3, 5, [(1, 7), (2, 9)], []⟩ ⟨3, 5, [(2, 9), (1, 7)], []⟩
    23 6 [4, 9] [9, 4] [(7, 13)] [(7, 13)]
    (by decide) (by decide) (by decide) (by decide) rfl
    (List.Perm.swap (2, 9) (1, 7) []) (List.Perm.swap 9 4 []) (List.Perm.refl _)

/-- Go `math/big` `ModInverse(g, n)` for a nonnegative residue `g`: the
extended-Euclid Bézout coefficient of `g`, reduced into `[0, n)`. -/
def invMod (a n : Nat) : Nat := (Nat.gcdA a n % (n : Int)).toNat

/-- Go `math/big` `ModInverse(g, n)` for a possibly negative `g`: the argument
is first reduced modulo `n` to a nonnegative residue (for a negative
difference this adds a multiple of `n`), then inverted. -/
def modInverse (g : Int) (n : Nat) : Nat := invMod (g % (n : Int)).toNat n

/-- `calculateLagrangeCoefficient`: computes
`a_mk = Π (l / (l - k)) mod q` over the member IDs `l ≠ k` of the passed
group, each factor being `(l * ModInverse(l - k, q)) mod q`. -/
def calculateLagrangeCoefficient (Q memberID : Nat)
    (groupMembersIDs : List Nat) : Nat :=
  groupMembersIDs.foldl (fun acc otherID =>
    if otherID ≠ memberID then
      (acc * (otherID * modInverse ((otherID : Int) - (memberID : Int)) Q % Q))
        % Q
    else acc) 1

theorem invMod_cast (n : Nat) [Fact (Nat.Prime n)] (a : Nat)
    (ha : (a : ZMod n) ≠ 0) : ((invMod a n : Nat) : ZMod n) = (a : ZMod n)⁻¹ := by
  have hn : Nat.Prime n := Fact.out
  have hn0 : (n : Int) ≠ 0 := by
    exact_mod_cast hn.ne_zero
  have hcop : Nat.gcd a n = 1 := by
    have : Nat.Coprime a n := by
      rw [Nat.coprime_comm]
      rw [Nat.Prime.coprime_iff_not_dvd hn]
      intro hdvd
      exact ha ((ZMod.natCast_zmod_eq_zero_iff_dvd a n).mpr hdvd)
    exact this
  have hbez : (1 : Int) = a * Nat.gcdA a n + n * Nat.gcdB a n := by
    have h := Nat.gcd_eq_gcd_ab a n
    rw [hcop] at h
    exact_mod_cast h
  have hmul : (a : ZMod n) * ((Nat.gcdA a n : Int) : ZMod n) = 1 := by
    have h := congrArg (fun z : Int => (z : ZMod n)) hbez
    push_cast at h
    rw [ZMod.natCast_self, zero_mul, add_zero] at h
    exact h.symm
  have hnonneg : 0 ≤ Nat.gcdA a n % (n : Int) := Int.emod_nonneg _ hn0
  have hcast : ((invMod a n : Nat) : ZMod n) = ((Nat.gcdA a n : Int) : ZMod n) := by
    unfold invMod
    have h₁ : (((Nat.gcdA a n % (n : Int)).toNat : Nat) : Int)
        = Nat.gcdA a n % (n : Int) := Int.toNat_of_nonneg hnonneg
    calc (((Nat.gcdA a n % (n : Int)).toNat : Nat) : ZMod n)
        = (((((Nat.gcdA a n % (n : Int)).toNat : Nat) : Int)) : ZMod n) := by
          rw [Int.cast_natCast]
      _ = ((Nat.gcdA a n % (n : Int) : Int) : ZMod n) := by rw [h₁]
      _ = ((Nat.gcdA a n : Int) : ZMod n) := ZMod.intCast_mod _ _
  rw [hcast]
  exact (inv_eq_of_mul_eq_one_right hmul).symm

theorem modInverse_cast (n : Nat) [Fact (Nat.Prime n)] (g : Int)
    (hg : ((g : Int) : ZMod n) ≠ 0) :
    ((modInverse g n : Nat) : ZMod n) = ((g : Int) : ZMod n)⁻¹ := by
  have hn : Nat.Prime n := Fact.out
  have hn0 : (n : Int) ≠ 0 := by exact_mod_cast hn.ne_zero
  have hnonneg : 0 ≤ g % (n : Int) := Int.emod_nonneg _ hn0
  have hcast : (((g % (n : Int)).toNat : Nat) : ZMod n) = ((g : Int) : ZMod n) := by
    have h₁ : ((((g % (n : Int)).toNat : Nat)) : Int) = g % (n : Int) :=
      Int.toNat_of_nonneg hnonneg
    calc (((g % (n : Int)).toNat : Nat) : ZMod n)
        = ((((g % (n : Int)).toNat : Nat) : Int) : ZMod n) := by
          rw [Int.cast_natCast]
      _ = ((g % (n : Int) : Int) : ZMod n) := by rw [h₁]
      _ = ((g : Int) : ZMod n) := ZMod.intCast_mod _ _
  unfold modInverse
  rw [invMod_cast n _ (by rw [hcast]; exact hg), hcast]

theorem lagrangeCoefficient_foldl_cast (Q : Nat) [Fact (Nat.Prime Q)] (k : Nat) :
    ∀ (ids : List Nat) (acc : Nat),
      (∀ l ∈ ids, l ≠ k → ((l : ZMod Q) - (k : ZMod Q)) ≠ 0) →
      ((ids.foldl (fun acc otherID =>
          if otherID ≠ k then
            (acc * (otherID * modInverse ((otherID : Int) - (k : Int)) Q % Q)) % Q
          else acc) acc : Nat) : ZMod Q)
        = (acc : ZMod Q)
            * ((ids.filter (fun l => decide (l ≠ k))).map
                (fun (l : Nat) => (l : ZMod Q) * ((l : ZMod Q) - (k : ZMod Q))⁻¹)).prod := by
  intro ids
  induction ids with
  | nil =>
      intro acc _
      simp
  | cons l rest ih =>
      intro acc hd
      by_cases hlk : l ≠ k
      · have hrest : ∀ x ∈ rest, x ≠ k → ((x : ZMod Q) - (k : ZMod Q)) ≠ 0 :=
          fun x hx => hd x (List.mem_cons_of_mem _ hx)
        have hsub : (((l : Int) - (k : Int) : Int) : ZMod Q)
            = (l : ZMod Q) - (k : ZMod Q) := by push_cast; ring
        have hne : (((l : Int) - (k : Int) : Int) : ZMod Q) ≠ 0 := by
          rw [hsub]
          exact hd l (List.mem_cons_self _ _) hlk
        have hstep :
            (((acc * (l * modInverse ((l : Int) - (k : Int)) Q % Q)) % Q : Nat)
              : ZMod Q)
            = (acc : ZMod Q)
                * ((l : ZMod Q) * ((l : ZMod Q) - (k : ZMod Q))⁻¹) := by
          rw [ZMod.natCast_mod, Nat.cast_mul, ZMod.natCast_mod, Nat.cast_mul]
          rw [modInverse_cast Q _ hne, hsub]
        calc (((l :: rest).foldl _ acc : Nat) : ZMod Q)
            = ((rest.foldl (fun acc otherID =>
                if otherID ≠ k then
                  (acc * (otherID * modInverse ((otherID : Int) - (k : Int)) Q % Q)) % Q
                else acc)
                ((acc * (l * modInverse ((l : Int) - (k : Int)) Q % Q)) % Q) : Nat)
                : ZMod Q) := by simp [hlk]
          _ = (((acc * (l * modInverse ((l : Int) - (k : Int)) Q % Q)) % Q : Nat)
                : ZMod Q)
                * ((rest.filter (fun l => decide (l ≠ k))).map
                    (fun (l : Nat) => (l : ZMod Q) * ((l : ZMod Q) - (k : ZMod Q))⁻¹)).prod :=
              ih _ hrest
          _ = (acc : ZMod Q)
                * (((l :: rest).filter (fun l => decide (l ≠ k))).map
                    (fun (l : Nat) => (l : ZMod Q) * ((l : ZMod Q) - (k : ZMod Q))⁻¹)).prod := by
              rw [hstep, List.filter_cons_of_pos (by simpa using hlk)]
              simp [mul_assoc]
      · have hlk' : l = k := by simpa using hlk
        have hrest : ∀ x ∈ rest, x ≠ k → ((x : ZMod Q) - (k : ZMod Q)) ≠ 0 :=
          fun x hx => hd x (List.mem_cons_of_mem _ hx)
        calc (((l :: rest).foldl _ acc : Nat) : ZMod Q)
            = ((rest.foldl (fun acc otherID =>
                if otherID ≠ k then
                  (acc * (otherID * modInverse ((otherID : Int) - (k : Int)) Q % Q)) % Q
                else acc) acc : Nat) : ZMod Q) := by simp [hlk']
          _ = (acc : ZMod Q)
                * ((rest.filter (fun l => decide (l ≠ k))).map
                    (fun (l : Nat) => (l : ZMod Q) * ((l : ZMod Q) - (k : ZMod Q))⁻¹)).prod :=
              ih _ hrest
          _ = (acc : ZMod Q)
                * (((l :: rest).filter (fun l => decide (l ≠ k))).map
                    (fun (l : Nat) => (l : ZMod Q) * ((l : ZMod Q) - (k : ZMod Q))⁻¹)).prod := by
              rw [List.filter_cons_of_neg (by simpa using hlk')]

theorem calculateLagrangeCoefficient_lt (Q k : Nat) (hQ : 1 < Q) :
    ∀ (ids : List Nat) (acc : Nat), acc < Q →
      ids.foldl (fun acc otherID =>
        if otherID ≠ k then
          (acc * (otherID * modInverse ((otherID : Int) - (k : Int)) Q % Q)) % Q
        else acc) acc < Q := by
  intro ids
  induction ids with
  | nil => intro acc h; simpa using h
  | cons l rest ih =>
      intro acc h
      by_cases hlk : l ≠ k
      · simp only [List.foldl_cons, if_pos hlk]
        exact ih _ (Nat.mod_lt _ (by omega))
      · simp only [List.foldl_cons, if_neg hlk]
        exact ih _ h

/-- C4: for a set of distinct peer member IDs (positive, below `Q`) containing
`k`, `calculateLagrangeCoefficient(k, peerIDs)` returns the representative in
`[0, Q)` of `Π_{l ≠ k} l * (l − k)^{-1} mod Q`, computed over exactly the peer
IDs present in the set, each (possibly negative) difference `l − k` being
reduced modulo `Q` before the modular inversion. -/
theorem calculateLagrangeCoefficient_correct
    (Q k : Nat) (ids : List Nat)
    (hQ : Nat.Prime Q) (hmem : k ∈ ids) (hnd : ids.Nodup)
    (hrange : ∀ l ∈ ids, 0 < l ∧ l < Q) :
    ((calculateLagrangeCoefficient Q k ids : Nat) : ZMod Q)
        = ((ids.filter (fun l => decide (l ≠ k))).map
            (fun (l : Nat) => (l : ZMod Q) * ((l : ZMod Q) - (k : ZMod Q))⁻¹)).prod
      ∧ calculateLagrangeCoefficient Q k ids < Q := by
  haveI : Fact (Nat.Prime Q) := ⟨hQ⟩
  haveI : NeZero Q := ⟨hQ.ne_zero⟩
  have hd : ∀ l ∈ ids, l ≠ k → ((l : ZMod Q) - (k : ZMod Q)) ≠ 0 := by
    intro l hl hlk hzero
    have heq : (l : ZMod Q) = (k : ZMod Q) := by
      have := sub_eq_zero.mp hzero
      exact this
    have hlQ : l < Q := (hrange l hl).2
    have hkQ : k < Q := (hrange k hmem).2
    have := congrArg ZMod.val heq
    rw [ZMod.val_cast_of_lt hlQ, ZMod.val_cast_of_lt hkQ] at this
    exact hlk this
  constructor
  · have h := lagrangeCoefficient_foldl_cast Q k ids 1 hd
    unfold calculateLagrangeCoefficient
    rw [h]
    simp
  · exact calculateLagrangeCoefficient_lt Q k hQ.one_lt ids 1 hQ.one_lt

/-- Witness for `calculateLagrangeCoefficient_correct`: `Q = 11`, `k = 2`,
peer IDs `{1, 2, 3}`. -/
theorem calculateLagrangeCoefficient_correct_witness :
    (((calculateLagrangeCoefficient 11 2 [1, 2, 3] : Nat) : ZMod 11)
        = (([1, 2, 3].filter (fun l => decide (l ≠ 2))).map
            (fun (l : Nat) => (l : ZMod 11) * ((l : ZMod 11) - (2 : Nat))⁻¹)).prod
      ∧ calculateLagrangeCoefficient 11 2 [1, 2, 3] < 11) :=
  calculateLagrangeCoefficient_correct 11 2 [1, 2, 3]
    (by norm_num) (by decide) (by decide) (by decide)

/-- `DisqualifiedShares`: shares `s_mk` calculated by the disqualified member
`m` for peer members `k`, revealed due to `m`'s disqualification. -/
structure DisqualifiedShares where
  disqualifiedMemberID : Nat
  peerSharesS : List (Nat × Nat)

/-- Per-member body of `ReconstructIndividualPrivateKeys`:
`z_m = Σ (s_mk * a_mk) mod q`, the Lagrange coefficient for each peer being
computed over the peer IDs present in the revealed shares. -/
def reconstructPrivateKey (Q : Nat) (ds : DisqualifiedShares) : Nat :=
  ds.peerSharesS.foldl (fun acc p =>
    (acc + p.2 * calculateLagrangeCoefficient Q p.1 (ds.peerSharesS.map Prod.fst))
      % Q) 0

/-- `ReconstructIndividualPrivateKeys`: map
`<disqualifiedMemberID, reconstructed private key>`. -/
def reconstructIndividualPrivateKeys (Q : Nat)
    (revealedDisqualifiedShares : List DisqualifiedShares) : List (Nat × Nat) :=
  revealedDisqualifiedShares.map
    (fun ds => (ds.disqualifiedMemberID, reconstructPrivateKey Q ds))

/-- `ReconstructIndividualPublicKeys`: `y_m = g^{z_m} mod p` for every
reconstructed individual private key. -/
def reconstructIndividualPublicKeys (dkg : DKG)
    (privateKeys : List (Nat × Nat)) : List (Nat × Nat) :=
  privateKeys.map (fun p => (p.1, dkg.G ^ p.2 % dkg.P))

/-- `CalculatePublicKeySharePoints` (Phase 7): `A_k = g^a_k mod p`. -/
def calculatePublicKeySharePoints (dkg : DKG)
    (secretCoefficients : List Nat) : List Nat :=
  secretCoefficients.map (fun a => dkg.G ^ a % dkg.P)

/-- Polynomial with the given coefficient list (constant term first); proof
device only, relating the protocol arithmetic to `Mathlib` interpolation. -/
noncomputable def listPoly {F : Type} [CommSemiring F] : List F → Polynomial F
  | [] => 0
  | a :: rest => Polynomial.C a + Polynomial.X * listPoly rest

theorem listPoly_nil {F : Type} [CommSemiring F] : listPoly ([] : List F) = 0 := rfl

theorem listPoly_cons {F : Type} [CommSemiring F] (a : F) (rest : List F) :
    listPoly (a :: rest) = Polynomial.C a + Polynomial.X * listPoly rest := rfl

theorem listPoly_degree_lt {F : Type} [CommSemiring F] :
    ∀ l : List F, (listPoly l).degree < ((l.length : Nat) : WithBot Nat)
  | [] => by simp [listPoly_nil]
  | a :: rest => by
      have ih := listPoly_degree_lt rest
      have h₁ : (Polynomial.C a).degree ≤ 0 := Polynomial.degree_C_le
      have h₂ : (Polynomial.X * listPoly rest).degree
          ≤ 1 + (listPoly rest).degree := by
        calc (Polynomial.X * listPoly rest).degree
            ≤ Polynomial.X.degree + (listPoly rest).degree :=
              Polynomial.degree_mul_le _ _
          _ ≤ 1 + (listPoly rest).degree := by
              exact add_le_add_right Polynomial.degree_X_le _
      have h₃ : (1 : WithBot Nat) + (listPoly rest).degree
          < (((rest.length + 1 : Nat)) : WithBot Nat) := by
        have : ((rest.length + 1 : Nat) : WithBot Nat)
            = 1 + ((rest.length : Nat) : WithBot Nat) := by
          push_cast
          ring
        rw [this]
        exact WithBot.add_lt_add_left (by simp) ih
      have h₄ : (Polynomial.C a + Polynomial.X * listPoly rest).degree
          ≤ max (Polynomial.C a).degree (Polynomial.X * listPoly rest).degree :=
        Polynomial.degree_add_le _ _
      have h₅ : (0 : WithBot Nat) < (((rest.length + 1 : Nat)) : WithBot Nat) := by
        exact_mod_cast Nat.succ_pos rest.length
      calc (listPoly (a :: rest)).degree
          = (Polynomial.C a + Polynomial.X * listPoly rest).degree := by
            rw [listPoly_cons]
        _ ≤ max (Polynomial.C a).degree (Polynomial.X * listPoly rest).degree := h₄
        _ < (((rest.length + 1 : Nat)) : WithBot Nat) := by
            rw [max_lt_iff]
            exact ⟨lt_of_le_of_lt h₁ h₅, lt_of_le_of_lt h₂ h₃⟩
        _ = (((a :: rest).length : Nat) : WithBot Nat) := by simp

theorem listPoly_eval_zero {F : Type} [CommSemiring F] :
    ∀ l : List F, (listPoly l).eval 0 = l.headD 0
  | [] => by simp [listPoly_nil]
  | a :: rest => by simp [listPoly_cons, Polynomial.eval_mul]

theorem polyEvalFrom_cast (Q : Nat) (j : Nat) :
    ∀ (l : List Nat) (k : Nat),
      ((polyEvalFrom j k l : Nat) : ZMod Q)
        = (j : ZMod Q) ^ k
            * (listPoly (l.map (Nat.cast : Nat → ZMod Q))).eval (j : ZMod Q) := by
  intro l
  induction l with
  | nil => intro k; simp [polyEvalFrom, listPoly_nil]
  | cons a rest ih =>
      intro k
      calc ((polyEvalFrom j k (a :: rest) : Nat) : ZMod Q)
          = ((a * j ^ k + polyEvalFrom j (k + 1) rest : Nat) : ZMod Q) := rfl
        _ = (a : ZMod Q) * (j : ZMod Q) ^ k
              + ((polyEvalFrom j (k + 1) rest : Nat) : ZMod Q) := by push_cast; ring
        _ = (a : ZMod Q) * (j : ZMod Q) ^ k
              + (j : ZMod Q) ^ (k + 1)
                  * (listPoly (rest.map Nat.cast)).eval (j : ZMod Q) := by rw [ih]
        _ = (j : ZMod Q) ^ k
              * (listPoly ((a :: rest).map Nat.cast)).eval (j : ZMod Q) := by
            simp only [List.map_cons, listPoly_cons, Polynomial.eval_add,
              Polynomial.eval_mul, Polynomial.eval_C, Polynomial.eval_X]
            ring

theorem evaluateMemberShare_cast (dkg : DKG) (j : Nat) (l : List Nat) :
    ((evaluateMemberShare dkg j l : Nat) : ZMod dkg.Q)
      = (listPoly (l.map (Nat.cast : Nat → ZMod dkg.Q))).eval (j : ZMod dkg.Q) := by
  have h₁ : ((evaluateMemberShare dkg j l : Nat) : ZMod dkg.Q)
      = ((polyEvalFrom j 0 l : Nat) : ZMod dkg.Q) :=
    (ZMod.natCast_eq_natCast_iff _ _ _).mpr (evaluateMemberShare_modEq dkg j l)
  rw [h₁, polyEvalFrom_cast]
  simp

theorem foldl_add_mod_cast (Q : Nat) {α : Type} (f : α → Nat) :
    ∀ (l : List α) (acc : Nat),
      ((l.foldl (fun acc x => (acc + f x) % Q) acc : Nat) : ZMod Q)
        = (acc : ZMod Q) + (l.map (fun x => ((f x : Nat) : ZMod Q))).sum := by
  intro l
  induction l with
  | nil => intro acc; simp
  | cons x rest ih =>
      intro acc
      calc (((x :: rest).foldl (fun acc x => (acc + f x) % Q) acc : Nat) : ZMod Q)
          = ((rest.foldl (fun acc x => (acc + f x) % Q) ((acc + f x) % Q) : Nat)
              : ZMod Q) := rfl
        _ = (((acc + f x) % Q : Nat) : ZMod Q)
              + (rest.map (fun x => ((f x : Nat) : ZMod Q))).sum := ih _
        _ = (acc : ZMod Q)
              + ((x :: rest).map (fun x => ((f x : Nat) : ZMod Q))).sum := by
            rw [ZMod.natCast_mod]
            push_cast
            simp [add_assoc]

theorem foldl_add_mod_lt (Q : Nat) {α : Type} (f : α → Nat) (hQ : 0 < Q) :
    ∀ (l : List α) (acc : Nat), acc < Q →
      l.foldl (fun acc x => (acc + f x) % Q) acc < Q := by
  intro l
  induction l with
  | nil => intro acc h; simpa using h
  | cons x rest ih => intro acc _; exact ih _ (Nat.mod_lt _ hQ)

theorem pow_Q_cast_eq_one (P G Q : Nat) (hG : G ^ Q % P = 1) :
    (G : ZMod P) ^ Q = 1 := by
  have h : ((G ^ Q % P : Nat) : ZMod P) = ((1 : Nat) : ZMod P) := by rw [hG]
  rw [ZMod.natCast_mod] at h
  push_cast at h
  exact h

theorem basisDivisor_eval_zero {F : Type} [Field F] (x y : F) :
    (Lagrange.basisDivisor x y).eval 0 = y * (y - x)⁻¹ := by
  have h₁ : (Lagrange.basisDivisor x y).eval 0 = (x - y)⁻¹ * (0 - y) := by
    simp [Lagrange.basisDivisor]
  rw [h₁]
  have h₂ : (y - x)⁻¹ = -((x - y)⁻¹) := by
    rw [← neg_sub x y, inv_neg]
  rw [h₂]
  ring

theorem basis_eval_zero_eq (Q : Nat) [Fact (Nat.Prime Q)]
    (keys : List Nat) (hknd : keys.Nodup) (k : Nat) :
    (Lagrange.basis keys.toFinset (Nat.cast : Nat → ZMod Q) k).eval 0
      = ((keys.filter (fun l => decide (l ≠ k))).map
          (fun (l : Nat) => (l : ZMod Q) * ((l : ZMod Q) - (k : ZMod Q))⁻¹)).prod := by
  have herase : (keys.filter (fun l => decide (l ≠ k))).toFinset
      = keys.toFinset.erase k := by
    ext x
    simp only [List.mem_toFinset, List.mem_filter, decide_eq_true_eq,
      Finset.mem_erase]
    tauto
  have hfilterNd : (keys.filter (fun l => decide (l ≠ k))).Nodup :=
    hknd.filter _
  calc (Lagrange.basis keys.toFinset (Nat.cast : Nat → ZMod Q) k).eval 0
      = ∏ j ∈ keys.toFinset.erase k,
          (Lagrange.basisDivisor (k : ZMod Q) (j : ZMod Q)).eval 0 := by
        rw [Lagrange.basis, Polynomial.eval_prod]
    _ = ∏ j ∈ (keys.filter (fun l => decide (l ≠ k))).toFinset,
          (Lagrange.basisDivisor (k : ZMod Q) (j : ZMod Q)).eval 0 := by
        rw [herase]
    _ = ((keys.filter (fun l => decide (l ≠ k))).map
          (fun (j : Nat) => (Lagrange.basisDivisor (k : ZMod Q) (j : ZMod Q)).eval 0)).prod :=
        List.prod_toFinset _ hfilterNd
    _ = ((keys.filter (fun l => decide (l ≠ k))).map
          (fun (l : Nat) => (l : ZMod Q) * ((l : ZMod Q) - (k : ZMod Q))⁻¹)).prod := by
        apply congrArg
        apply List.map_congr_left
        intro l _
        exact basisDivisor_eval_zero _ _

theorem lagrange_sum_eval_zero (Q : Nat) [Fact (Nat.Prime Q)]
    (keys : List Nat) (coeffs : List Nat)
    (hknd : keys.Nodup)
    (hinj : ∀ x ∈ keys, ∀ y ∈ keys, (x : ZMod Q) = (y : ZMod Q) → x = y)
    (hlen : coeffs.length ≤ keys.length) :
    (keys.map (fun (k : Nat) =>
        (listPoly (coeffs.map (Nat.cast : Nat → ZMod Q))).eval (k : ZMod Q)
          * ((calculateLagrangeCoefficient Q k keys : Nat) : ZMod Q))).sum
      = (coeffs.map (Nat.cast : Nat → ZMod Q)).headD 0 := by
  have hvs : Set.InjOn (Nat.cast : Nat → ZMod Q) ↑keys.toFinset := by
    intro a ha b hb hab
    rw [Finset.mem_coe, List.mem_toFinset] at ha hb
    exact hinj a ha b hb hab
  have hcard : keys.toFinset.card = keys.length :=
    List.toFinset_card_of_nodup hknd
  have hdeg : (listPoly (coeffs.map (Nat.cast : Nat → ZMod Q))).degree
      < (keys.toFinset.card : WithBot Nat) := by
    refine lt_of_lt_of_le (listPoly_degree_lt _) ?_
    rw [hcard, List.length_map]
    exact_mod_cast hlen
  have hinterp :=
    Lagrange.eq_interpolate (f := listPoly (coeffs.map (Nat.cast : Nat → ZMod Q)))
      hvs hdeg
  have h0 := congrArg (Polynomial.eval 0) hinterp
  rw [Lagrange.interpolate_apply, Polynomial.eval_finset_sum] at h0
  simp only [Polynomial.eval_mul, Polynomial.eval_C] at h0
  rw [listPoly_eval_zero] at h0
  have hlist : ∑ i ∈ keys.toFinset,
      (listPoly (coeffs.map (Nat.cast : Nat → ZMod Q))).eval (i : ZMod Q)
        * (Lagrange.basis keys.toFinset (Nat.cast : Nat → ZMod Q) i).eval 0
      = (keys.map (fun (k : Nat) =>
          (listPoly (coeffs.map (Nat.cast : Nat → ZMod Q))).eval (k : ZMod Q)
            * ((calculateLagrangeCoefficient Q k keys : Nat) : ZMod Q))).sum := by
    rw [List.sum_toFinset _ hknd]
    apply congrArg
    apply List.map_congr_left
    intro k hk
    have hd : ∀ l ∈ keys, l ≠ k → ((l : ZMod Q) - (k : ZMod Q)) ≠ 0 := by
      intro l hl hlk hzero
      exact hlk (hinj l hl k hk (sub_eq_zero.mp hzero))
    have hlam : ((calculateLagrangeCoefficient Q k keys : Nat) : ZMod Q)
        = ((keys.filter (fun l => decide (l ≠ k))).map
            (fun (l : Nat) => (l : ZMod Q) * ((l : ZMod Q) - (k : ZMod Q))⁻¹)).prod := by
      unfold calculateLagrangeCoefficient
      rw [lagrangeCoefficient_foldl_cast Q k keys 1 hd]
      simp
    rw [hlam, basis_eval_zero_eq Q keys hknd k]
  rw [← hlist, ← h0]

theorem reconstructPrivateKey_eq (dkg : DKG) (ds : DisqualifiedShares)
    (coeffs : List Nat)
    (hQ : Nat.Prime dkg.Q)
    (hknd : (ds.peerSharesS.map Prod.fst).Nodup)
    (hinj : ∀ x ∈ ds.peerSharesS.map Prod.fst, ∀ y ∈ ds.peerSharesS.map Prod.fst,
        (x : ZMod dkg.Q) = (y : ZMod dkg.Q) → x = y)
    (hlen : coeffs.length ≤ ds.peerSharesS.length)
    (hshares : ∀ p ∈ ds.peerSharesS, p.2 = evaluateMemberShare dkg p.1 coeffs) :
    reconstructPrivateKey dkg.Q ds = coeffs.headD 0 % dkg.Q := by
  haveI : Fact (Nat.Prime dkg.Q) := ⟨hQ⟩
  haveI : NeZero dkg.Q := ⟨hQ.ne_zero⟩
  have hQ0 : 0 < dkg.Q := hQ.pos
  have hcast : ((reconstructPrivateKey dkg.Q ds : Nat) : ZMod dkg.Q)
      = (ds.peerSharesS.map (fun p =>
          ((p.2 * calculateLagrangeCoefficient dkg.Q p.1
              (ds.peerSharesS.map Prod.fst) : Nat) : ZMod dkg.Q))).sum := by
    have h := foldl_add_mod_cast dkg.Q
      (fun p : Nat × Nat => p.2 * calculateLagrangeCoefficient dkg.Q p.1
        (ds.peerSharesS.map Prod.fst)) ds.peerSharesS 0
    simpa using h
  have hsum : (ds.peerSharesS.map (fun p =>
        ((p.2 * calculateLagrangeCoefficient dkg.Q p.1
            (ds.peerSharesS.map Prod.fst) : Nat) : ZMod dkg.Q))).sum
      = ((ds.peerSharesS.map Prod.fst).map (fun (k : Nat) =>
          (listPoly (coeffs.map (Nat.cast : Nat → ZMod dkg.Q))).eval (k : ZMod dkg.Q)
            * ((calculateLagrangeCoefficient dkg.Q k
                (ds.peerSharesS.map Prod.fst) : Nat) : ZMod dkg.Q))).sum := by
    rw [List.map_map]
    apply congrArg
    apply List.map_congr_left
    intro p hp
    show ((p.2 * calculateLagrangeCoefficient dkg.Q p.1
        (ds.peerSharesS.map Prod.fst) : Nat) : ZMod dkg.Q)
      = (listPoly (coeffs.map (Nat.cast : Nat → ZMod dkg.Q))).eval (p.1 : ZMod dkg.Q)
          * ((calculateLagrangeCoefficient dkg.Q p.1
              (ds.peerSharesS.map Prod.fst) : Nat) : ZMod dkg.Q)
    rw [Nat.cast_mul, hshares p hp, evaluateMemberShare_cast]
  have hinterp := lagrange_sum_eval_zero dkg.Q (ds.peerSharesS.map Prod.fst)
    coeffs hknd hinj (by simpa using hlen)
  have hhead : (coeffs.map (Nat.cast : Nat → ZMod dkg.Q)).headD 0
      = ((coeffs.headD 0 : Nat) : ZMod dkg.Q) := by
    cases coeffs with
    | nil => simp
    | cons a rest => simp
  have hfinal : ((reconstructPrivateKey dkg.Q ds : Nat) : ZMod dkg.Q)
      = ((coeffs.headD 0 : Nat) : ZMod dkg.Q) := by
    rw [hcast, hsum, hinterp, hhead]
  have hlt : reconstructPrivateKey dkg.Q ds < dkg.Q := by
    have h := foldl_add_mod_lt dkg.Q
      (fun p : Nat × Nat => p.2 * calculateLagrangeCoefficient dkg.Q p.1
        (ds.peerSharesS.map Prod.fst)) hQ0 ds.peerSharesS 0 hQ0
    exact h
  have hval := congrArg ZMod.val hfinal
  rwa [ZMod.val_cast_of_lt hlt, ZMod.val_natCast] at hval

theorem lookup_reconstructPrivateKeys (Q : Nat) :
    ∀ (dsList : List DisqualifiedShares) (ds : DisqualifiedShares),
      ds ∈ dsList →
      (dsList.map DisqualifiedShares.disqualifiedMemberID).Nodup →
      lookup ds.disqualifiedMemberID (reconstructIndividualPrivateKeys Q dsList)
        = some (reconstructPrivateKey Q ds) := by
  intro dsList
  induction dsList with
  | nil => intro ds h _; simp at h
  | cons d rest ih =>
      intro ds hmem hnd
      rw [List.map_cons, List.nodup_cons] at hnd
      rcases List.mem_cons.mp hmem with heq | hmemrest
      · subst heq
        simp [reconstructIndividualPrivateKeys, lookup]
      · have hne : d.disqualifiedMemberID ≠ ds.disqualifiedMemberID := by
          intro h
          exact hnd.1 (h ▸ List.mem_map_of_mem _ hmemrest)
        have htail := ih ds hmemrest hnd.2
        simpa [reconstructIndividualPrivateKeys, lookup, hne] using htail

theorem lookup_map_value (f : Nat → Nat) (k : Nat) :
    ∀ l : List (Nat × Nat),
      lookup k (l.map (fun p => (p.1, f p.2))) = (lookup k l).map f
  | [] => rfl
  | (k₀, v) :: rest => by
      by_cases h : k₀ = k <;>
        simp [lookup, h, lookup_map_value f k rest]

/-- C2: for a disqualified member `m` whose revealed shares were honestly
generated as `s_mk = f_a(k) mod Q` from a polynomial with constant term `z_m`
and `t+1` coefficients, if the `DisqualifiedShares` record for `m` contains
shares for more than `t` peer IDs (nonzero and distinct modulo `Q`), then
`ReconstructIndividualPrivateKeys` maps `m` to `z_m mod Q`,
`ReconstructIndividualPublicKeys` maps `m` to `G^{z_m} mod P`, and the latter
equals `m`'s published `A_m[0]`. -/
theorem reconstruct_individual_keys_exact
    (dkg : DKG) (t : Nat) (zm : Nat) (atail : List Nat)
    (ds : DisqualifiedShares) (dsList : List DisqualifiedShares)
    (hQ : Nat.Prime dkg.Q)
    (hG : dkg.G ^ dkg.Q % dkg.P = 1)
    (hlen : (zm :: atail).length = t + 1)
    (hmem : ds ∈ dsList)
    (hnodupIDs : (dsList.map DisqualifiedShares.disqualifiedMemberID).Nodup)
    (hknd : (ds.peerSharesS.map Prod.fst).Nodup)
    (hinj : ∀ x ∈ ds.peerSharesS.map Prod.fst, ∀ y ∈ ds.peerSharesS.map Prod.fst,
        (x : ZMod dkg.Q) = (y : ZMod dkg.Q) → x = y)
    (hnz : ∀ x ∈ ds.peerSharesS.map Prod.fst, (x : ZMod dkg.Q) ≠ 0)
    (hcount : t < ds.peerSharesS.length)
    (hshares : ∀ p ∈ ds.peerSharesS,
        p.2 = evaluateMemberShare dkg p.1 (zm :: atail)) :
    lookup ds.disqualifiedMemberID (reconstructIndividualPrivateKeys dkg.Q dsList)
        = some (zm % dkg.Q)
      ∧ lookup ds.disqualifiedMemberID
          (reconstructIndividualPublicKeys dkg
            (reconstructIndividualPrivateKeys dkg.Q dsList))
        = some (dkg.G ^ zm % dkg.P)
      ∧ dkg.G ^ zm % dkg.P
        = (calculatePublicKeySharePoints dkg (zm :: atail)).headI := by
  have hlen' : (zm :: atail).length ≤ ds.peerSharesS.length := by
    rw [hlen]
    omega
  have hpriv : reconstructPrivateKey dkg.Q ds = zm % dkg.Q := by
    have h := reconstructPrivateKey_eq dkg ds (zm :: atail) hQ hknd hinj hlen' hshares
    simpa using h
  have hl1 : lookup ds.disqualifiedMemberID
      (reconstructIndividualPrivateKeys dkg.Q dsList)
      = some (zm % dkg.Q) := by
    rw [lookup_reconstructPrivateKeys dkg.Q dsList ds hmem hnodupIDs, hpriv]
  have hpow : dkg.G ^ (zm % dkg.Q) % dkg.P = dkg.G ^ zm % dkg.P := by
    apply (ZMod.natCast_eq_natCast_iff' _ _ _).mp
    push_cast
    exact pow_eq_of_modEq_of_pow_order_one _ dkg.Q
      (pow_Q_cast_eq_one dkg.P dkg.G dkg.Q hG) (Nat.mod_modEq zm dkg.Q)
  have hl2 : lookup ds.disqualifiedMemberID
      (reconstructIndividualPublicKeys dkg
        (reconstructIndividualPrivateKeys dkg.Q dsList))
      = some (dkg.G ^ zm % dkg.P) := by
    show lookup ds.disqualifiedMemberID
      ((reconstructIndividualPrivateKeys dkg.Q dsList).map
        (fun p => (p.1, dkg.G ^ p.2 % dkg.P)))
      = some (dkg.G ^ zm % dkg.P)
    rw [lookup_map_value (fun z => dkg.G ^ z % dkg.P) _ _, hl1]
    simp [hpow]
  exact ⟨hl1, hl2, rfl⟩

/-- Witness for `reconstruct_individual_keys_exact`: `Q = 11`, `P = 23`,
`G = 4`, polynomial `3 + 2x` (`z_m = 3`, `t = 1`), shares revealed by peers
`1` and `2`. -/
theorem reconstruct_individual_keys_exact_witness :
    lookup 7 (reconstructIndividualPrivateKeys 11 [⟨7, [(1, 5), (2, 7)]⟩])
        = some (3 % 11)
      ∧ lookup 7 (reconstructIndividualPublicKeys ⟨23, 11, 4, 9⟩
          (reconstructIndividualPrivateKeys 11 [⟨7, [(1, 5), (2, 7)]⟩]))
        = some (4 ^ 3 % 23)
      ∧ 4 ^ 3 % 23
        = (calculatePublicKeySharePoints ⟨23, 11, 4, 9⟩ [3, 2]).headI :=
  reconstruct_individual_keys_exact ⟨23, 11, 4, 9⟩ 1 3 [2]
    ⟨7, [(1, 5), (2, 7)]⟩ [⟨7, [(1, 5), (2, 7)]⟩]
    (by norm_num) (by decide) (by decide) (List.mem_cons_self _ _) (by decide)
    (by decide) (by decide) (by decide) (by decide) (by decide)

/-- Modelled from the spec: ECDH key agreement of the `ephemeral` package (not
in the sources).  Private and public keys are abstract scalars and the derived
symmetric key is their product, which is symmetric across the two endpoints. -/
def ecdh (privateKey publicKey : Nat) : Nat := privateKey * publicKey

/-- Modelled from the spec: an authenticated-encryption ciphertext of the
`ephemeral` package (not in the sources); decryption succeeds exactly under
the key it was encrypted with and signals a MAC mismatch otherwise. -/
structure Ciphertext where
  encKey : Nat
  plaintext : Nat

/-- Modelled from the spec: authenticated decryption; fails on MAC mismatch. -/
def decrypt (symmetricKey : Nat) (c : Ciphertext) : Option Nat :=
  if c.encKey = symmetricKey then some c.plaintext else none

/-- `EphemeralPublicKeyMessage`: sender plus the map receiver → ephemeral
public key generated by the sender for that receiver. -/
structure EphemeralPublicKeyMessage where
  senderID : Nat
  ephemeralPublicKeys : List (Nat × Nat)

/-- `PeerSharesMessage`: sender plus the map receiver → encrypted share pair
`(E_S, E_T)`. -/
structure PeerSharesMessage where
  senderID : Nat
  shares : List (Nat × (Ciphertext × Ciphertext))

/-- `PeerSharesMessage.decryptShareS`: decrypts the share S addressed to the
given receiver with the given symmetric key. -/
def decryptShareS (msg : PeerSharesMessage) (receiverID symmetricKey : Nat) :
    Except String Nat :=
  match lookup receiverID msg.shares with
  | none => .error "no shares for receiver"
  | some (encS, _) =>
      match decrypt symmetricKey encS with
      | none => .error "cannot decrypt S"
      | some s => .ok s

/-- `PeerSharesMessage.decryptShareT`: decrypts the share T addressed to the
given receiver with the given symmetric key. -/
def decryptShareT (msg : PeerSharesMessage) (receiverID symmetricKey : Nat) :
    Except String Nat :=
  match lookup receiverID msg.shares with
  | none => .error "no shares for receiver"
  | some (_, encT) =>
      match decrypt symmetricKey encT with
      | none => .error "cannot decrypt T"
      | some t => .ok t

/-- The evidence log: per-sender records of the Phase 1 and Phase 3
broadcasts (the slice consulted by the functions verified here). -/
structure EvidenceLog where
  ephemeralMessages : List (Nat × EphemeralPublicKeyMessage)
  peerSharesMessages : List (Nat × PeerSharesMessage)

/-- Modelled from the spec: `evidenceLog.PutEphemeralMessage` (the evidence
log implementation is not in the sources); the first recorded message for a
sender wins, later writes for the same sender are ignored. -/
def putEphemeralMessage (log : EvidenceLog) (msg : EphemeralPublicKeyMessage) :
    EvidenceLog :=
  match lookup msg.senderID log.ephemeralMessages with
  | some _ => log
  | none =>
      { log with
        ephemeralMessages := log.ephemeralMessages ++ [(msg.senderID, msg)] }

/-- `evidenceLog.ephemeralPublicKeyMessage`: Phase 1 message of a sender. -/
def ephemeralPublicKeyMessage (log : EvidenceLog) (senderID : Nat) :
    Option EphemeralPublicKeyMessage :=
  lookup senderID log.ephemeralMessages

/-- `evidenceLog.peerSharesMessage`: Phase 3 shares message of a sender. -/
def peerSharesMessage (log : EvidenceLog) (senderID : Nat) :
    Option PeerSharesMessage :=
  lookup senderID log.peerSharesMessages

/-- `recoverSymmetricKey`: finds in the evidence log the ephemeral public key
the sender generated for the receiver and performs ECDH with the receiver's
revealed private key. -/
def recoverSymmetricKey (log : EvidenceLog) (senderID receiverID : Nat)
    (receiverPrivateKey : Nat) : Except String Nat :=
  match ephemeralPublicKeyMessage log senderID with
  | none => .error "no ephemeral public key message for sender"
  | some msg =>
      match lookup receiverID msg.ephemeralPublicKeys with
      | none => .error "no ephemeral public key generated for receiver"
      | some senderPublicKey => .ok (ecdh receiverPrivateKey senderPublicKey)

/-- `recoverShares`: finds in the evidence log the peer shares message of the
sender and decrypts both shares addressed to the receiver. -/
def recoverShares (log : EvidenceLog) (senderID receiverID symmetricKey : Nat) :
    Except String (Nat × Nat) :=
  match peerSharesMessage log senderID with
  | none => .error "no peer shares message for sender"
  | some msg =>
      match decryptShareS msg receiverID symmetricKey with
      | .error _ => .error "cannot decrypt share S"
      | .ok shareS =>
          match decryptShareT msg receiverID symmetricKey with
          | .error _ => .error "cannot decrypt share T"
          | .ok shareT => .ok (shareS, shareT)

/-- `SecretSharesAccusationsMessage`: accuser plus the map
accused → accuser's revealed ephemeral private key for the accused. -/
structure SecretSharesAccusationsMessage where
  senderID : Nat
  accusedMembersKeys : List (Nat × Nat)

/-- `PointsAccusationsMessage`: accuser plus the map
accused → accuser's revealed ephemeral private key for the accused. -/
structure PointsAccusationsMessage where
  senderID : Nat
  accusedMembersKeys : List (Nat × Nat)

/-- State of a `SharesJustifyingMember` consulted by Phase 5 resolution. -/
structure SharesJustifyingMember where
  ID : Nat
  dkg : DKG
  evidenceLog : EvidenceLog
  receivedValidPeerCommitments : List (Nat × List Nat)

/-- Inner loop of `ResolveSecretSharesAccusationsMessages` over one message's
accusations: guards against the member being a party, recovers the symmetric
key and the shares, and disqualifies the accuser when the shares verify
against the accused member's commitments, the accused otherwise. -/
def resolveSecretSharesAccusation (m : SharesJustifyingMember)
    (accuserID : Nat) : List (Nat × Nat) → Except String (List Nat)
  | [] => .ok []
  | (accusedID, revealedAccuserPrivateKey) :: rest =>
      if m.ID = accuserID ∨ m.ID = accusedID then
        .error "current member cannot be a part of a dispute"
      else
        match recoverSymmetricKey m.evidenceLog accusedID accuserID
            revealedAccuserPrivateKey with
        | .error _ => .error "could not recover symmetric key"
        | .ok symmetricKey =>
            match recoverShares m.evidenceLog accusedID accuserID symmetricKey with
            | .error _ => .error "could not decrypt shares"
            | .ok (shareS, shareT) =>
                match resolveSecretSharesAccusation m accuserID rest with
                | .error e => .error e
                | .ok ds =>
                    if areSharesValidAgainstCommitments m.dkg shareS shareT
                        (lookupD accusedID m.receivedValidPeerCommitments [])
                        accuserID then
                      .ok (accuserID :: ds)
                    else
                      .ok (accusedID :: ds)

/-- Outer loop of `ResolveSecretSharesAccusationsMessages` over all received
accusation messages, accumulating disqualified members in iteration order. -/
def resolveSecretSharesAccusations (m : SharesJustifyingMember) :
    List SecretSharesAccusationsMessage → Except String (List Nat)
  | [] => .ok []
  | msg :: rest =>
      match resolveSecretSharesAccusation m msg.senderID
          msg.accusedMembersKeys with
      | .error e => .error e
      | .ok ds =>
          match resolveSecretSharesAccusations m rest with
          | .error e => .error e
          | .ok ds₂ => .ok (ds ++ ds₂)

/-- `ResolveSecretSharesAccusationsMessages` (Phase 5): the source assigns no
member field, so the member state passes through unchanged next to the
returned disqualified list or error. -/
def resolveSecretSharesAccusationsMessages (m : SharesJustifyingMember)
    (messages : List SecretSharesAccusationsMessage) :
    SharesJustifyingMember × Except String (List Nat) :=
  (m, resolveSecretSharesAccusations m messages)

/-- Loop body of `isShareValidAgainstPublicKeySharePoints`: accumulates
`product = Π (A_jk ^ (i^k)) mod p`, exactly as the source loop. -/
def pointsProductAux (P j : Nat) : Nat → Nat → List Nat → Nat
  | acc, _, [] => acc
  | acc, k, a :: rest =>
      pointsProductAux P j ((acc * (a ^ j ^ k % P)) % P) (k + 1) rest

/-- `isShareValidAgainstPublicKeySharePoints`: checks
`product == expectedProduct` where `product = Π (A_jk ^ (i^k)) mod p` and
`expectedProduct = g^s_ji mod p`. -/
def isShareValidAgainstPublicKeySharePoints (dkg : DKG) (senderID : Nat)
    (shareS : Nat) (publicKeySharePoints : List Nat) : Bool :=
  decide (dkg.G ^ shareS % dkg.P
    = pointsProductAux dkg.P senderID 1 0 publicKeySharePoints)

/-- State of a `PointsJustifyingMember` consulted by Phase 9 resolution. -/
structure PointsJustifyingMember where
  ID : Nat
  dkg : DKG
  evidenceLog : EvidenceLog
  receivedValidPeerPublicKeySharePoints : List (Nat × List Nat)

/-- Inner loop of `ResolvePublicKeySharePointsAccusationsMessages` over one
message's accusations; mirrors Phase 5 but checks share S against the accused
member's public key share points. -/
def resolvePointsAccusation (m : PointsJustifyingMember)
    (accuserID : Nat) : List (Nat × Nat) → Except String (List Nat)
  | [] => .ok []
  | (accusedID, revealedAccuserPrivateKey) :: rest =>
      if m.ID = accuserID ∨ m.ID = accusedID then
        .error "current member cannot be a part of a dispute"
      else
        match recoverSymmetricKey m.evidenceLog accusedID accuserID
            revealedAccuserPrivateKey with
        | .error _ => .error "could not recover symmetric key"
        | .ok recoveredSymmetricKey =>
            match recoverShares m.evidenceLog accusedID accuserID
                recoveredSymmetricKey with
            | .error _ => .error "could not decrypt share S"
            | .ok (shareS, _) =>
                match resolvePointsAccusation m accuserID rest with
                | .error e => .error e
                | .ok ds =>
                    if isShareValidAgainstPublicKeySharePoints m.dkg accuserID
                        shareS
                        (lookupD accusedID
                          m.receivedValidPeerPublicKeySharePoints []) then
                      .ok (accuserID :: ds)
                    else
                      .ok (accusedID :: ds)

/-- Outer loop of `ResolvePublicKeySharePointsAccusationsMessages`. -/
def resolvePointsAccusations (m : PointsJustifyingMember) :
    List PointsAccusationsMessage → Except String (List Nat)
  | [] => .ok []
  | msg :: rest =>
      match resolvePointsAccusation m msg.senderID msg.accusedMembersKeys with
      | .error e => .error e
      | .ok ds =>
          match resolvePointsAccusations m rest with
          | .error e => .error e
          | .ok ds₂ => .ok (ds ++ ds₂)

/-- `ResolvePublicKeySharePointsAccusationsMessages` (Phase 9): the source
assigns no member field, so the member state passes through unchanged next to
the returned disqualified list or error. -/
def resolvePublicKeySharePointsAccusationsMessages (m : PointsJustifyingMember)
    (messages : List PointsAccusationsMessage) :
    PointsJustifyingMember × Except String (List Nat) :=
  (m, resolvePointsAccusations m messages)

/-- The two recovery steps Phase 5 performs for one accusation
`(accused, revealed key)` judged for accuser `accuserID`: recover the
symmetric key from the evidence log, then decrypt the recorded shares. -/
def sharesRecovery (m : SharesJustifyingMember) (accuserID : Nat)
    (acc : Nat × Nat) : Except String (Nat × Nat) :=
  match recoverSymmetricKey m.evidenceLog acc.1 accuserID acc.2 with
  | .error e => .error e
  | .ok symmetricKey => recoverShares m.evidenceLog acc.1 accuserID symmetricKey

/-- Verdict of Phase 5 for one successfully recovered accusation: the accuser
when the shares verify against the accused member's commitments, the accused
otherwise (`0` is a dummy for the unreachable recovery-failure branch). -/
def secretSharesAccusationVerdict (m : SharesJustifyingMember)
    (accuserID : Nat) (acc : Nat × Nat) : Nat :=
  match sharesRecovery m accuserID acc with
  | .error _ => 0
  | .ok (shareS, shareT) =>
      if areSharesValidAgainstCommitments m.dkg shareS shareT
          (lookupD acc.1 m.receivedValidPeerCommitments []) accuserID
      then accuserID else acc.1

theorem resolveSecretSharesAccusation_ok_of_recoverable
    (m : SharesJustifyingMember) (accuserID : Nat) :
    ∀ accList : List (Nat × Nat),
      (∀ acc ∈ accList, m.ID ≠ accuserID ∧ m.ID ≠ acc.1) →
      (∀ acc ∈ accList, (sharesRecovery m accuserID acc).isOk = true) →
      resolveSecretSharesAccusation m accuserID accList
        = .ok (accList.map (secretSharesAccusationVerdict m accuserID)) := by
  intro accList
  induction accList with
  | nil => intro _ _; rfl
  | cons acc rest ih =>
      intro hself hrec
      obtain ⟨accusedID, revealedKey⟩ := acc
      have hok := hrec _ (List.mem_cons_self _ _)
      have hcond : ¬(m.ID = accuserID ∨ m.ID = accusedID) := by
        have h := hself _ (List.mem_cons_self _ _)
        tauto
      cases hsk : recoverSymmetricKey m.evidenceLog accusedID accuserID
          revealedKey with
      | error e => simp [sharesRecovery, hsk, Except.isOk, Except.toBool] at hok
      | ok symmetricKey =>
          cases hst : recoverShares m.evidenceLog accusedID accuserID
              symmetricKey with
          | error e => simp [sharesRecovery, hsk, hst, Except.isOk, Except.toBool] at hok
          | ok st =>
              obtain ⟨shareS, shareT⟩ := st
              have htail := ih
                (fun a ha => hself a (List.mem_cons_of_mem _ ha))
                (fun a ha => hrec a (List.mem_cons_of_mem _ ha))
              simp only [resolveSecretSharesAccusation, if_neg hcond, hsk,
                hst, htail, List.map_cons]
              have hverdict : secretSharesAccusationVerdict m accuserID
                  (accusedID, revealedKey)
                  = if areSharesValidAgainstCommitments m.dkg shareS shareT
                      (lookupD accusedID m.receivedValidPeerCommitments [])
                      accuserID
                    then accuserID else accusedID := by
                simp [secretSharesAccusationVerdict, sharesRecovery, hsk, hst]
              rw [hverdict]
              by_cases hvalid : areSharesValidAgainstCommitments m.dkg shareS
                  shareT (lookupD accusedID m.receivedValidPeerCommitments [])
                  accuserID = true
              · simp [hvalid]
              · simp [hvalid]

/-- C1: for every accusation `(accuser, accused)` judged by a member that is
not a party, when the symmetric key and the shares are successfully recovered
from the evidence log, Phase 5 resolution returns exactly one verdict per
accusation, in order: the accuser when
`areSharesValidAgainstCommitments(s, t, C_accused, accuser)` holds, the
accused otherwise, and nobody else. -/
theorem resolve_secret_shares_accusations_verdicts
    (m : SharesJustifyingMember)
    (messages : List SecretSharesAccusationsMessage)
    (hself : ∀ msg ∈ messages, ∀ acc ∈ msg.accusedMembersKeys,
        m.ID ≠ msg.senderID ∧ m.ID ≠ acc.1)
    (hrec : ∀ msg ∈ messages, ∀ acc ∈ msg.accusedMembersKeys,
        (sharesRecovery m msg.senderID acc).isOk = true) :
    resolveSecretSharesAccusationsMessages m messages
        = (m, .ok (messages.flatMap (fun msg =>
            msg.accusedMembersKeys.map
              (secretSharesAccusationVerdict m msg.senderID))))
      ∧ ∀ msg ∈ messages, ∀ acc ∈ msg.accusedMembersKeys,
          ∀ shareS shareT,
            sharesRecovery m msg.senderID acc = .ok (shareS, shareT) →
            secretSharesAccusationVerdict m msg.senderID acc
              = if areSharesValidAgainstCommitments m.dkg shareS shareT
                  (lookupD acc.1 m.receivedValidPeerCommitments [])
                  msg.senderID
                then msg.senderID else acc.1 := by
  constructor
  · unfold resolveSecretSharesAccusationsMessages
    apply congrArg
    induction messages with
    | nil => rfl
    | cons msg rest ih =>
        have hmsg := resolveSecretSharesAccusation_ok_of_recoverable m
          msg.senderID msg.accusedMembersKeys
          (hself msg (List.mem_cons_self _ _))
          (hrec msg (List.mem_cons_self _ _))
        have htail := ih
          (fun x hx => hself x (List.mem_cons_of_mem _ hx))
          (fun x hx => hrec x (List.mem_cons_of_mem _ hx))
        simp only [resolveSecretSharesAccusations, hmsg, htail,
          List.flatMap_cons]
  · intro msg _ acc _ shareS shareT hok
    simp [secretSharesAccusationVerdict, hok]

/-- Witness for `resolve_secret_shares_accusations_verdicts`: judge `3`
resolves the accusation of accuser `1` against accused `2`; the evidence log
holds the accused member's Phase 1 and Phase 3 messages encrypted under
`ecdh(3, 5) = 15`, and the accuser reveals private key `3`. -/
theorem resolve_secret_shares_accusations_verdicts_witness :
    resolveSecretSharesAccusationsMessages
        ⟨3, ⟨23, 11, 4, 9⟩,
          ⟨[(2, ⟨2, [(1, 5)]⟩)], [(2, ⟨2, [(1, (⟨15, 4⟩, ⟨15, 6⟩))]⟩)]⟩,
          [(2, [7])]⟩
        [⟨1, [(2, 3)]⟩]
        = (⟨3, ⟨23, 11, 4, 9⟩,
            ⟨[(2, ⟨2, [(1, 5)]⟩)], [(2, ⟨2, [(1, (⟨15, 4⟩, ⟨15, 6⟩))]⟩)]⟩,
            [(2, [7])]⟩,
          .ok (([⟨1, [(2, 3)]⟩] : List SecretSharesAccusationsMessage).flatMap
            (fun msg => msg.accusedMembersKeys.map
              (secretSharesAccusationVerdict
                ⟨3, ⟨23, 11, 4, 9⟩,
                  ⟨[(2, ⟨2, [(1, 5)]⟩)],
                    [(2, ⟨2, [(1, (⟨15, 4⟩, ⟨15, 6⟩))]⟩)]⟩,
                  [(2, [7])]⟩ msg.senderID)))) :=
  (resolve_secret_shares_accusations_verdicts
    ⟨3, ⟨23, 11, 4, 9⟩,
      ⟨[(2, ⟨2, [(1, 5)]⟩)], [(2, ⟨2, [(1, (⟨15, 4⟩, ⟨15, 6⟩))]⟩)]⟩,
      [(2, [7])]⟩
    [⟨1, [(2, 3)]⟩] (by decide) (by decide)).1

theorem resolveSecretSharesAccusation_ok_no_self (m : SharesJustifyingMember)
    (accuserID : Nat) :
    ∀ (accList : List (Nat × Nat)) (ds : List Nat),
      resolveSecretSharesAccusation m accuserID accList = .ok ds →
      ∀ acc ∈ accList, ¬(m.ID = accuserID ∨ m.ID = acc.1) := by
  intro accList
  induction accList with
  | nil => intro ds _ acc hacc; simp at hacc
  | cons a rest ih =>
      intro ds hok acc hacc
      obtain ⟨accusedID, revealedKey⟩ := a
      by_cases hcond : m.ID = accuserID ∨ m.ID = accusedID
      · simp only [resolveSecretSharesAccusation, if_pos hcond] at hok
        exact Except.noConfusion hok
      · rcases List.mem_cons.mp hacc with heq | htail
        · subst heq
          exact hcond
        · cases hsk : recoverSymmetricKey m.evidenceLog accusedID accuserID
              revealedKey with
          | error e =>
              simp only [resolveSecretSharesAccusation, if_neg hcond, hsk]
                at hok
              exact Except.noConfusion hok
          | ok symmetricKey =>
              cases hst : recoverShares m.evidenceLog accusedID accuserID
                  symmetricKey with
              | error e =>
                  simp only [resolveSecretSharesAccusation, if_neg hcond,
                    hsk, hst] at hok
                  exact Except.noConfusion hok
              | ok st =>
                  obtain ⟨shareS, shareT⟩ := st
                  cases hrest : resolveSecretSharesAccusation m accuserID
                      rest with
                  | error e =>
                      simp only [resolveSecretSharesAccusation, if_neg hcond,
                        hsk, hst, hrest] at hok
                      exact Except.noConfusion hok
                  | ok ds₁ => exact ih ds₁ hrest acc htail

theorem resolveSecretSharesAccusations_ok_no_self
    (m : SharesJustifyingMember) :
    ∀ (msgs : List SecretSharesAccusationsMessage) (ds : List Nat),
      resolveSecretSharesAccusations m msgs = .ok ds →
      ∀ msg ∈ msgs, ∀ acc ∈ msg.accusedMembersKeys,
        ¬(m.ID = msg.senderID ∨ m.ID = acc.1) := by
  intro msgs
  induction msgs with
  | nil => intro ds _ msg hmsg; simp at hmsg
  | cons msg₀ rest ih =>
      intro ds hok msg hmsg acc hacc
      cases hin : resolveSecretSharesAccusation m msg₀.senderID
          msg₀.accusedMembersKeys with
      | error e =>
          simp only [resolveSecretSharesAccusations, hin] at hok
          exact Except.noConfusion hok
      | ok ds₁ =>
          cases hrest : resolveSecretSharesAccusations m rest with
          | error e =>
              simp only [resolveSecretSharesAccusations, hin, hrest] at hok
              exact Except.noConfusion hok
          | ok ds₂ =>
              rcases List.mem_cons.mp hmsg with heq | htail
              · subst heq
                exact resolveSecretSharesAccusation_ok_no_self m msg.senderID
                  msg.accusedMembersKeys ds₁ hin acc hacc
              · exact ih ds₂ hrest msg htail acc hacc

theorem resolvePointsAccusation_ok_no_self (m : PointsJustifyingMember)
    (accuserID : Nat) :
    ∀ (accList : List (Nat × Nat)) (ds : List Nat),
      resolvePointsAccusation m accuserID accList = .ok ds →
      ∀ acc ∈ accList, ¬(m.ID = accuserID ∨ m.ID = acc.1) := by
  intro accList
  induction accList with
  | nil => intro ds _ acc hacc; simp at hacc
  | cons a rest ih =>
      intro ds hok acc hacc
      obtain ⟨accusedID, revealedKey⟩ := a
      by_cases hcond : m.ID = accuserID ∨ m.ID = accusedID
      · simp only [resolvePointsAccusation, if_pos hcond] at hok
        exact Except.noConfusion hok
      · rcases List.mem_cons.mp hacc with heq | htail
        · subst heq
          exact hcond
        · cases hsk : recoverSymmetricKey m.evidenceLog accusedID accuserID
              revealedKey with
          | error e =>
              simp only [resolvePointsAccusation, if_neg hcond, hsk] at hok
              exact Except.noConfusion hok
          | ok symmetricKey =>
              cases hst : recoverShares m.evidenceLog accusedID accuserID
                  symmetricKey with
              | error e =>
                  simp only [resolvePointsAccusation, if_neg hcond, hsk, hst]
                    at hok
                  exact Except.noConfusion hok
              | ok st =>
                  obtain ⟨shareS, shareT⟩ := st
                  cases hrest : resolvePointsAccusation m accuserID rest with
                  | error e =>
                      simp only [resolvePointsAccusation, if_neg hcond, hsk,
                        hst, hrest] at hok
                      exact Except.noConfusion hok
                  | ok ds₁ => exact ih ds₁ hrest acc htail

theorem resolvePointsAccusations_ok_no_self (m : PointsJustifyingMember) :
    ∀ (msgs : List PointsAccusationsMessage) (ds : List Nat),
      resolvePointsAccusations m msgs = .ok ds →
      ∀ msg ∈ msgs, ∀ acc ∈ msg.accusedMembersKeys,
        ¬(m.ID = msg.senderID ∨ m.ID = acc.1) := by
  intro msgs
  induction msgs with
  | nil => intro ds _ msg hmsg; simp at hmsg
  | cons msg₀ rest ih =>
      intro ds hok msg hmsg acc hacc
      cases hin : resolvePointsAccusation m msg₀.senderID
          msg₀.accusedMembersKeys with
      | error e =>
          simp only [resolvePointsAccusations, hin] at hok
          exact Except.noConfusion hok
      | ok ds₁ =>
          cases hrest : resolvePointsAccusations m rest with
          | error e =>
              simp only [resolvePointsAccusations, hin, hrest] at hok
              exact Except.noConfusion hok
          | ok ds₂ =>
              rcases List.mem_cons.mp hmsg with heq | htail
              · subst heq
                exact resolvePointsAccusation_ok_no_self m msg.senderID
                  msg.accusedMembersKeys ds₁ hin acc hacc
              · exact ih ds₂ hrest msg htail acc hacc

/-- C7: when the accusation list contains an accusation in which the current
member is the accuser or the accused, Phase 5 and Phase 9 resolution return
an error and no disqualified-member list, and the member state passes through
the call unchanged. -/
theorem resolution_self_in_dispute_errors
    (m₅ : SharesJustifyingMember) (msgs₅ : List SecretSharesAccusationsMessage)
    (m₉ : PointsJustifyingMember) (msgs₉ : List PointsAccusationsMessage)
    (h₅ : ∃ msg ∈ msgs₅, ∃ acc ∈ msg.accusedMembersKeys,
        m₅.ID = msg.senderID ∨ m₅.ID = acc.1)
    (h₉ : ∃ msg ∈ msgs₉, ∃ acc ∈ msg.accusedMembersKeys,
        m₉.ID = msg.senderID ∨ m₉.ID = acc.1) :
    (resolveSecretSharesAccusationsMessages m₅ msgs₅).1 = m₅
    ∧ (∃ e, (resolveSecretSharesAccusationsMessages m₅ msgs₅).2 = .error e)
    ∧ (resolvePublicKeySharePointsAccusationsMessages m₉ msgs₉).1 = m₉
    ∧ (∃ e, (resolvePublicKeySharePointsAccusationsMessages m₉ msgs₉).2
        = .error e) := by
  refine ⟨rfl, ?_, rfl, ?_⟩
  · cases hres : resolveSecretSharesAccusations m₅ msgs₅ with
    | error e =>
        exact ⟨e, by simp [resolveSecretSharesAccusationsMessages, hres]⟩
    | ok ds =>
        obtain ⟨msg, hmsg, acc, hacc, hor⟩ := h₅
        exact absurd hor
          (resolveSecretSharesAccusations_ok_no_self m₅ msgs₅ ds hres
            msg hmsg acc hacc)
  · cases hres : resolvePointsAccusations m₉ msgs₉ with
    | error e =>
        exact ⟨e,
          by simp [resolvePublicKeySharePointsAccusationsMessages, hres]⟩
    | ok ds =>
        obtain ⟨msg, hmsg, acc, hacc, hor⟩ := h₉
        exact absurd hor
          (resolvePointsAccusations_ok_no_self m₉ msgs₉ ds hres
            msg hmsg acc hacc)

/-- Witness for `resolution_self_in_dispute_errors`: member `1` judging an
accusation made by itself (Phase 5) and against itself (Phase 9). -/
theorem resolution_self_in_dispute_errors_witness :
    (resolveSecretSharesAccusationsMessages
        ⟨1, ⟨23, 11, 4, 9⟩, ⟨[], []⟩, []⟩ [⟨1, [(2, 0)]⟩]).1
      = ⟨1, ⟨23, 11, 4, 9⟩, ⟨[], []⟩, []⟩
    ∧ (∃ e, (resolveSecretSharesAccusationsMessages
        ⟨1, ⟨23, 11, 4, 9⟩, ⟨[], []⟩, []⟩ [⟨1, [(2, 0)]⟩]).2 = .error e)
    ∧ (resolvePublicKeySharePointsAccusationsMessages
        ⟨1, ⟨23, 11, 4, 9⟩, ⟨[], []⟩, []⟩ [⟨3, [(1, 0)]⟩]).1
      = ⟨1, ⟨23, 11, 4, 9⟩, ⟨[], []⟩, []⟩
    ∧ (∃ e, (resolvePublicKeySharePointsAccusationsMessages
        ⟨1, ⟨23, 11, 4, 9⟩, ⟨[], []⟩, []⟩ [⟨3, [(1, 0)]⟩]).2 = .error e) :=
  resolution_self_in_dispute_errors
    ⟨1, ⟨23, 11, 4, 9⟩, ⟨[], []⟩, []⟩ [⟨1, [(2, 0)]⟩]
    ⟨1, ⟨23, 11, 4, 9⟩, ⟨[], []⟩, []⟩ [⟨3, [(1, 0)]⟩]
    (by decide) (by decide)

/-- Judge `3` holding an evidence log in which accused `2` broadcast Phase 1
key `5` for accuser `1` and a Phase 3 ciphertext encrypted under symmetric
key `10`; the accuser reveals private key `3`, which recovers
`ecdh(3, 5) = 15 ≠ 10`, so authenticated decryption of the shares fails. -/
def keyMismatchJudge : SharesJustifyingMember :=
  ⟨3, ⟨23, 11, 4, 9⟩,
    ⟨[(2, ⟨2, [(1, 5)]⟩)], [(2, ⟨2, [(1, (⟨10, 4⟩, ⟨10, 6⟩))]⟩)]⟩, []⟩

/-- Counterexample to C5: when the key revealed by the accuser does not match
the key the recorded ciphertext was encrypted under, Phase 5 resolution
returns an error and no disqualified-member list at all — the accuser `1` is
not added to any returned list. -/
theorem key_mismatch_accuser_not_disqualified :
    resolveSecretSharesAccusationsMessages keyMismatchJudge [⟨1, [(2, 3)]⟩]
      = (keyMismatchJudge, .error "could not decrypt shares") := rfl

/-- C5 as amended: for an accusation whose revealed private key recovers a
symmetric key that fails authenticated decryption of the recorded shares
ciphertext, Phase 5 and Phase 9 resolution abort with an error (no member,
in particular not the accuser, is disqualified). -/
theorem accusation_decrypt_failure_aborts
    (m₅ : SharesJustifyingMember) (m₉ : PointsJustifyingMember)
    (accuserID accusedID revealedKey sk : Nat)
    (restAcc : List (Nat × Nat)) (restMsgs : List SecretSharesAccusationsMessage)
    (accuserID₉ accusedID₉ revealedKey₉ sk₉ : Nat)
    (restAcc₉ : List (Nat × Nat)) (restMsgs₉ : List PointsAccusationsMessage)
    (hself : ¬(m₅.ID = accuserID ∨ m₅.ID = accusedID))
    (hsk : recoverSymmetricKey m₅.evidenceLog accusedID accuserID revealedKey
        = .ok sk)
    (hfail : ∃ e, recoverShares m₅.evidenceLog accusedID accuserID sk
        = .error e)
    (hself₉ : ¬(m₉.ID = accuserID₉ ∨ m₉.ID = accusedID₉))
    (hsk₉ : recoverSymmetricKey m₉.evidenceLog accusedID₉ accuserID₉
        revealedKey₉ = .ok sk₉)
    (hfail₉ : ∃ e, recoverShares m₉.evidenceLog accusedID₉ accuserID₉ sk₉
        = .error e) :
    resolveSecretSharesAccusationsMessages m₅
        (⟨accuserID, (accusedID, revealedKey) :: restAcc⟩ :: restMsgs)
      = (m₅, .error "could not decrypt shares")
    ∧ resolvePublicKeySharePointsAccusationsMessages m₉
        (⟨accuserID₉, (accusedID₉, revealedKey₉) :: restAcc₉⟩ :: restMsgs₉)
      = (m₉, .error "could not decrypt share S") := by
  obtain ⟨e, he⟩ := hfail
  obtain ⟨e₉, he₉⟩ := hfail₉
  constructor
  · unfold resolveSecretSharesAccusationsMessages
    have hinner : resolveSecretSharesAccusation m₅ accuserID
        ((accusedID, revealedKey) :: restAcc)
        = .error "could not decrypt shares" := by
      simp only [resolveSecretSharesAccusation, if_neg hself, hsk, he]
    simp only [resolveSecretSharesAccusations, hinner]
  · unfold resolvePublicKeySharePointsAccusationsMessages
    have hinner : resolvePointsAccusation m₉ accuserID₉
        ((accusedID₉, revealedKey₉) :: restAcc₉)
        = .error "could not decrypt share S" := by
      simp only [resolvePointsAccusation, if_neg hself₉, hsk₉, he₉]
    simp only [resolvePointsAccusations, hinner]

/-- Judge `3` for the Phase 9 half of the decrypt-failure scenario. -/
def keyMismatchPointsJudge : PointsJustifyingMember :=
  ⟨3, ⟨23, 11, 4, 9⟩,
    ⟨[(2, ⟨2, [(1, 5)]⟩)], [(2, ⟨2, [(1, (⟨10, 4⟩, ⟨10, 6⟩))]⟩)]⟩, []⟩

/-- Witness for `accusation_decrypt_failure_aborts` at the concrete
key-mismatch scenario. -/
theorem accusation_decrypt_failure_aborts_witness :
    resolveSecretSharesAccusationsMessages keyMismatchJudge [⟨1, [(2, 3)]⟩]
      = (keyMismatchJudge, .error "could not decrypt shares")
    ∧ resolvePublicKeySharePointsAccusationsMessages keyMismatchPointsJudge
        [⟨1, [(2, 3)]⟩]
      = (keyMismatchPointsJudge, .error "could not decrypt share S") :=
  accusation_decrypt_failure_aborts keyMismatchJudge keyMismatchPointsJudge
    1 2 3 15 [] [] 1 2 3 15 [] []
    (by decide) rfl ⟨"cannot decrypt share S", rfl⟩
    (by decide) rfl ⟨"cannot decrypt share S", rfl⟩

/-- State of a `SymmetricKeyGeneratingMember` consulted by Phase 2:
`ephemeralKeyPairs` maps each other member to this member's ephemeral private
key for them (the only half of the pair these functions read). -/
structure SymmetricKeyGeneratingMember where
  ID : Nat
  ephemeralKeyPairs : List (Nat × Nat)
  symmetricKeys : List (Nat × Nat)
  evidenceLog : EvidenceLog

/-- `GenerateSymmetricKeys` (Phase 2): for each inbound message, first records
it in the evidence log, then looks up the local ephemeral key pair for its
sender — returning the missing-key-pair error if absent, with all state
changes made so far kept — and otherwise stores the ECDH symmetric key and
continues.  A missing entry for this member in the sender's key map reads as
the Go zero value (default `0`). -/
def generateSymmetricKeys :
    SymmetricKeyGeneratingMember → List EphemeralPublicKeyMessage →
    SymmetricKeyGeneratingMember × Option String
  | m, [] => (m, none)
  | m, msg :: rest =>
      let m₁ : SymmetricKeyGeneratingMember :=
        { m with evidenceLog := putEphemeralMessage m.evidenceLog msg }
      match lookup msg.senderID m₁.ephemeralKeyPairs with
      | none => (m₁, some "ephemeral key pair does not exist for member")
      | some thisMemberEphemeralPrivateKey =>
          let symmetricKey :=
            ecdh thisMemberEphemeralPrivateKey
              (lookupD m₁.ID msg.ephemeralPublicKeys 0)
          generateSymmetricKeys
            { m₁ with
              symmetricKeys := mapStore msg.senderID symmetricKey m₁.symmetricKeys }
            rest

theorem mapStore_lookup {α : Type} (k k₀ : Nat) (v : α) :
    ∀ l : List (Nat × α),
      lookup k (mapStore k₀ v l) = if k₀ = k then some v else lookup k l := by
  intro l
  induction l with
  | nil => simp [mapStore, lookup]
  | cons p rest ih =>
      obtain ⟨k₁, v₁⟩ := p
      by_cases h₁ : k₁ = k₀
      · subst h₁
        by_cases h₂ : k₁ = k <;> simp [mapStore, lookup, h₂]
      · by_cases h₂ : k₁ = k
        · subst h₂
          have : ¬k₀ = k₁ := fun h => h₁ h.symm
          simp [mapStore, lookup, h₁, this]
        · simp [mapStore, lookup, h₁, h₂, ih]

theorem lookup_append_some {α : Type} (k : Nat) (v : α) :
    ∀ (l l₂ : List (Nat × α)), lookup k l = some v →
      lookup k (l ++ l₂) = some v := by
  intro l l₂
  induction l with
  | nil => intro h; simp [lookup] at h
  | cons p rest ih =>
      intro h
      obtain ⟨k₁, v₁⟩ := p
      by_cases h₁ : k₁ = k
      · simp [lookup, h₁] at h ⊢
        exact h
      · simp [lookup, h₁] at h ⊢
        exact ih h

theorem lookup_append_self {α : Type} (k : Nat) (v : α) :
    ∀ l : List (Nat × α), lookup k l = none →
      lookup k (l ++ [(k, v)]) = some v := by
  intro l
  induction l with
  | nil => intro _; simp [lookup]
  | cons p rest ih =>
      intro h
      obtain ⟨k₁, v₁⟩ := p
      by_cases h₁ : k₁ = k
      · simp [lookup, h₁] at h
      · simp [lookup, h₁] at h ⊢
        exact ih h

theorem putEphemeralMessage_lookup_isSome (log : EvidenceLog)
    (msg : EphemeralPublicKeyMessage) :
    (ephemeralPublicKeyMessage (putEphemeralMessage log msg)
      msg.senderID).isSome = true := by
  unfold putEphemeralMessage ephemeralPublicKeyMessage
  cases h : lookup msg.senderID log.ephemeralMessages with
  | some v => simp [h]
  | none => simp [lookup_append_self _ _ _ h]

theorem putEphemeralMessage_preserves_isSome (log : EvidenceLog)
    (msg : EphemeralPublicKeyMessage) (sid : Nat)
    (h : (ephemeralPublicKeyMessage log sid).isSome = true) :
    (ephemeralPublicKeyMessage (putEphemeralMessage log msg) sid).isSome
      = true := by
  unfold ephemeralPublicKeyMessage at h
  unfold putEphemeralMessage ephemeralPublicKeyMessage
  cases hput : lookup msg.senderID log.ephemeralMessages with
  | some v => simpa using h
  | none =>
      obtain ⟨v, hv⟩ := Option.isSome_iff_exists.mp h
      simp [lookup_append_some _ _ _ _ hv]

theorem generateSymmetricKeys_preserves_symKey (k : Nat) :
    ∀ (msgs : List EphemeralPublicKeyMessage)
      (m : SymmetricKeyGeneratingMember),
      (lookup k m.symmetricKeys).isSome = true →
      (lookup k (generateSymmetricKeys m msgs).1.symmetricKeys).isSome
        = true := by
  intro msgs
  induction msgs with
  | nil => intro m h; exact h
  | cons msg rest ih =>
      intro m h
      cases hkp : lookup msg.senderID m.ephemeralKeyPairs with
      | none => simpa [generateSymmetricKeys, hkp] using h
      | some priv =>
          have hstore : (lookup k (mapStore msg.senderID
              (ecdh priv (lookupD m.ID msg.ephemeralPublicKeys 0))
              m.symmetricKeys)).isSome = true := by
            rw [mapStore_lookup]
            by_cases hs : msg.senderID = k <;> simp [hs, h]
          simpa [generateSymmetricKeys, hkp] using ih _ hstore

theorem generateSymmetricKeys_preserves_log (sid : Nat) :
    ∀ (msgs : List EphemeralPublicKeyMessage)
      (m : SymmetricKeyGeneratingMember),
      (ephemeralPublicKeyMessage m.evidenceLog sid).isSome = true →
      (ephemeralPublicKeyMessage (generateSymmetricKeys m msgs).1.evidenceLog
        sid).isSome = true := by
  intro msgs
  induction msgs with
  | nil => intro m h; exact h
  | cons msg rest ih =>
      intro m h
      have h₁ := putEphemeralMessage_preserves_isSome m.evidenceLog msg sid h
      cases hkp : lookup msg.senderID m.ephemeralKeyPairs with
      | none => simpa [generateSymmetricKeys, hkp] using h₁
      | some priv => simpa [generateSymmetricKeys, hkp] using ih _ h₁

/-- C9: `GenerateSymmetricKeys` records each inbound message in the evidence
log before checking that a local ephemeral key pair exists for its sender; on
the missing-key-pair error the failing sender's Phase 1 message is already in
the evidence log and the symmetric keys derived for all messages processed
before the failing one remain stored — the operation is not atomic on error. -/
theorem generateSymmetricKeys_not_atomic_on_error
    (m : SymmetricKeyGeneratingMember)
    (pre : List EphemeralPublicKeyMessage) (bad : EphemeralPublicKeyMessage)
    (rest : List EphemeralPublicKeyMessage)
    (hpre : ∀ msg ∈ pre,
        (lookup msg.senderID m.ephemeralKeyPairs).isSome = true)
    (hbad : lookup bad.senderID m.ephemeralKeyPairs = none) :
    ∃ m₂ : SymmetricKeyGeneratingMember,
      generateSymmetricKeys m (pre ++ bad :: rest)
          = (m₂, some "ephemeral key pair does not exist for member")
        ∧ (ephemeralPublicKeyMessage m₂.evidenceLog bad.senderID).isSome = true
        ∧ ∀ msg ∈ pre,
            (lookup msg.senderID m₂.symmetricKeys).isSome = true := by
  induction pre generalizing m with
  | nil =>
      refine ⟨{ m with evidenceLog := putEphemeralMessage m.evidenceLog bad },
        ?_, ?_, ?_⟩
      · simp [generateSymmetricKeys, hbad]
      · exact putEphemeralMessage_lookup_isSome m.evidenceLog bad
      · intro msg hmsg; simp at hmsg
  | cons p pre ih =>
      obtain ⟨priv, hpriv⟩ := Option.isSome_iff_exists.mp
        (hpre p (List.mem_cons_self _ _))
      set m₂ : SymmetricKeyGeneratingMember :=
        { m with
          evidenceLog := putEphemeralMessage m.evidenceLog p,
          symmetricKeys :=
            mapStore p.senderID
              (ecdh priv (lookupD m.ID p.ephemeralPublicKeys 0))
              m.symmetricKeys } with hm₂
      obtain ⟨mf, heq, hlog, hsyms⟩ := ih m₂
        (fun msg hmsg => hpre msg (List.mem_cons_of_mem _ hmsg)) hbad
      refine ⟨mf, ?_, hlog, ?_⟩
      · calc generateSymmetricKeys m ((p :: pre) ++ bad :: rest)
            = generateSymmetricKeys m₂ (pre ++ bad :: rest) := by
              simp [generateSymmetricKeys, hpriv, hm₂]
          _ = (mf, some "ephemeral key pair does not exist for member") := heq
      · intro msg hmsg
        rcases List.mem_cons.mp hmsg with heq₀ | htail
        · subst heq₀
          have hstored : (lookup msg.senderID m₂.symmetricKeys).isSome
              = true := by
            rw [hm₂]
            simp [mapStore_lookup]
          have := generateSymmetricKeys_preserves_symKey msg.senderID
            (pre ++ bad :: rest) m₂ hstored
          rwa [heq] at this
        · exact hsyms msg htail

/-- Witness for `generateSymmetricKeys_not_atomic_on_error`: member `1` with
a key pair for `2` only; the message from `2` is processed, then the message
from `4` fails while already recorded. -/
theorem generateSymmetricKeys_not_atomic_on_error_witness :
    ∃ m₂ : SymmetricKeyGeneratingMember,
      generateSymmetricKeys ⟨1, [(2, 5)], [], ⟨[], []⟩⟩
          ([⟨2, [(1, 7)]⟩] ++ ⟨4, []⟩ :: [])
          = (m₂, some "ephemeral key pair does not exist for member")
        ∧ (ephemeralPublicKeyMessage m₂.evidenceLog 4).isSome = true
        ∧ ∀ msg ∈ ([⟨2, [(1, 7)]⟩] : List EphemeralPublicKeyMessage),
            (lookup msg.senderID m₂.symmetricKeys).isSome = true :=
  generateSymmetricKeys_not_atomic_on_error ⟨1, [(2, 5)], [], ⟨[], []⟩⟩
    [⟨2, [(1, 7)]⟩] ⟨4, []⟩ [] (by decide) (by decide)

/-- State of a `CommitmentsVerifyingMember` consulted by Phase 4 (the
received-valid maps start empty at this phase). -/
structure CommitmentsVerifyingMember where
  ID : Nat
  dkg : DKG
  symmetricKeys : List (Nat × Nat)
  ephemeralKeyPairs : List (Nat × Nat)

/-- `MemberCommitmentsMessage`: sender plus commitments `C[0..T]`. -/
structure MemberCommitmentsMessage where
  senderID : Nat
  commitments : List Nat

/-- Outer loop of `VerifyReceivedSharesAndCommitmentsMessages`: for each
commitments message, the first shares message from the same sender is
processed (decrypt both shares, check them against the commitments, then
either record the accusation or the valid data); a commitments message with
no shares message from its sender aborts with an error. -/
def verifySharesAndCommitmentsAux (m : CommitmentsVerifyingMember)
    (sharesMessages : List PeerSharesMessage) :
    List (Nat × Nat) → List (Nat × Nat) → List (Nat × Nat) →
    List (Nat × List Nat) → List MemberCommitmentsMessage →
    Except String
      (List (Nat × Nat) × List (Nat × Nat) × List (Nat × Nat)
        × List (Nat × List Nat))
  | accused, validS, validT, validC, [] => .ok (accused, validS, validT, validC)
  | accused, validS, validT, validC, cm :: rest =>
      match sharesMessages.find? (fun sm => sm.senderID == cm.senderID) with
      | none => .error "cannot find shares message from member"
      | some sharesMessage =>
          match lookup sharesMessage.senderID m.symmetricKeys with
          | none => .error "no symmetric key for sender"
          | some symmetricKey =>
              match decryptShareS sharesMessage m.ID symmetricKey with
              | .error _ => .error "could not decrypt share S"
              | .ok shareS =>
                  match decryptShareT sharesMessage m.ID symmetricKey with
                  | .error _ => .error "could not decrypt share T"
                  | .ok shareT =>
                      if areSharesValidAgainstCommitments m.dkg shareS shareT
                          cm.commitments m.ID then
                        verifySharesAndCommitmentsAux m sharesMessages
                          accused (mapStore cm.senderID shareS validS)
                          (mapStore cm.senderID shareT validT)
                          (mapStore cm.senderID cm.commitments validC) rest
                      else
                        verifySharesAndCommitmentsAux m sharesMessages
                          (mapStore cm.senderID
                            (lookupD cm.senderID m.ephemeralKeyPairs 0)
                            accused)
                          validS validT validC rest

/-- `VerifyReceivedSharesAndCommitmentsMessages` (Phase 4): returns the
accused members' revealed keys together with the recorded valid shares and
commitments, or an error. -/
def verifyReceivedSharesAndCommitmentsMessages
    (m : CommitmentsVerifyingMember) (sharesMessages : List PeerSharesMessage)
    (commitmentsMessages : List MemberCommitmentsMessage) :
    Except String
      (List (Nat × Nat) × List (Nat × Nat) × List (Nat × Nat)
        × List (Nat × List Nat)) :=
  verifySharesAndCommitmentsAux m sharesMessages [] [] [] []
    commitmentsMessages

theorem verifySharesAndCommitmentsAux_ok_matched
    (m : CommitmentsVerifyingMember) (sharesMessages : List PeerSharesMessage) :
    ∀ (cms : List MemberCommitmentsMessage) accused validS validT validC
      result,
      verifySharesAndCommitmentsAux m sharesMessages accused validS validT
          validC cms = .ok result →
      ∀ cm ∈ cms, ∃ sm ∈ sharesMessages, sm.senderID = cm.senderID := by
  intro cms
  induction cms with
  | nil => intro _ _ _ _ _ _ cm hcm; simp at hcm
  | cons cm₀ rest ih =>
      intro accused validS validT validC result hok cm hcm
      cases hfind : sharesMessages.find? (fun sm => sm.senderID == cm₀.senderID)
          with
      | none =>
          simp only [verifySharesAndCommitmentsAux, hfind] at hok
          exact Except.noConfusion hok
      | some sharesMessage =>
          rcases List.mem_cons.mp hcm with heq | htail
          · subst heq
            refine ⟨sharesMessage, List.mem_of_find?_eq_some hfind, ?_⟩
            have := List.find?_some hfind
            simpa using this
          · cases hkey : lookup sharesMessage.senderID m.symmetricKeys with
            | none =>
                simp only [verifySharesAndCommitmentsAux, hfind, hkey] at hok
                exact Except.noConfusion hok
            | some symmetricKey =>
                cases hds : decryptShareS sharesMessage m.ID symmetricKey with
                | error e =>
                    simp only [verifySharesAndCommitmentsAux, hfind, hkey,
                      hds] at hok
                    exact Except.noConfusion hok
                | ok shareS =>
                    cases hdt : decryptShareT sharesMessage m.ID symmetricKey
                        with
                    | error e =>
                        simp only [verifySharesAndCommitmentsAux, hfind, hkey,
                          hds, hdt] at hok
                        exact Except.noConfusion hok
                    | ok shareT =>
                        simp only [verifySharesAndCommitmentsAux, hfind, hkey,
                          hds, hdt] at hok
                        by_cases hvalid : areSharesValidAgainstCommitments
                            m.dkg shareS shareT cm₀.commitments m.ID = true
                        · rw [if_pos hvalid] at hok
                          exact ih _ _ _ _ _ hok cm htail
                        · rw [if_neg hvalid] at hok
                          exact ih _ _ _ _ _ hok cm htail

/-- Counterexample to C8: a shares message with no counterpart commitments
message is silently dropped — with one shares message and no commitments
messages the function succeeds instead of returning an error. -/
theorem unpaired_shares_message_not_an_error :
    verifyReceivedSharesAndCommitmentsMessages
        ⟨1, ⟨23, 11, 4, 9⟩, [], []⟩ [⟨2, []⟩] []
      = .ok ([], [], [], []) := rfl

/-- C8 as amended: only the commitments-to-shares direction is checked —
whenever some commitments message has no shares message from the same sender
the function returns an error, and when the first commitments message is
unmatched it is the cannot-find-shares-message error; an unmatched shares
message is silently ignored. -/
theorem unmatched_commitments_message_errors
    (m : CommitmentsVerifyingMember) (sharesMessages : List PeerSharesMessage)
    (commitmentsMessages : List MemberCommitmentsMessage)
    (h : ∃ cm ∈ commitmentsMessages,
        ∀ sm ∈ sharesMessages, sm.senderID ≠ cm.senderID) :
    (∃ e, verifyReceivedSharesAndCommitmentsMessages m sharesMessages
        commitmentsMessages = .error e)
    ∧ ∀ cm restCms, commitmentsMessages = cm :: restCms →
        (∀ sm ∈ sharesMessages, sm.senderID ≠ cm.senderID) →
        verifyReceivedSharesAndCommitmentsMessages m sharesMessages
            commitmentsMessages
          = .error "cannot find shares message from member" := by
  constructor
  · cases hres : verifyReceivedSharesAndCommitmentsMessages m sharesMessages
        commitmentsMessages with
    | error e => exact ⟨e, rfl⟩
    | ok result =>
        obtain ⟨cm, hcm, hno⟩ := h
        obtain ⟨sm, hsm, heq⟩ := verifySharesAndCommitmentsAux_ok_matched m
          sharesMessages commitmentsMessages [] [] [] [] result hres cm hcm
        exact absurd heq (hno sm hsm)
  · intro cm restCms hcms hno
    subst hcms
    have hfind : sharesMessages.find? (fun sm => sm.senderID == cm.senderID)
        = none := by
      rw [List.find?_eq_none]
      intro sm hsm
      simpa using hno sm hsm
    simp only [verifyReceivedSharesAndCommitmentsMessages,
      verifySharesAndCommitmentsAux, hfind]

/-- Witness for `unmatched_commitments_message_errors`: a commitments message
from `2` with no shares messages at all. -/
theorem unmatched_commitments_message_errors_witness :
    ((∃ e, verifyReceivedSharesAndCommitmentsMessages
        ⟨1, ⟨23, 11, 4, 9⟩, [], []⟩ [] [⟨2, [5]⟩] = .error e)
    ∧ ∀ cm restCms,
        ([⟨2, [5]⟩] : List MemberCommitmentsMessage) = cm :: restCms →
        (∀ sm ∈ ([] : List PeerSharesMessage), sm.senderID ≠ cm.senderID) →
        verifyReceivedSharesAndCommitmentsMessages
            ⟨1, ⟨23, 11, 4, 9⟩, [], []⟩ [] [⟨2, [5]⟩]
          = .error "cannot find shares message from member") :=
  unmatched_commitments_message_errors ⟨1, ⟨23, 11, 4, 9⟩, [], []⟩ [] [⟨2, [5]⟩]
    ⟨⟨2, [5]⟩, List.mem_cons_self _ _, by simp⟩

/-- State of a `SharingMember` consulted by Phase 8 point verification. -/
structure SharingMember where
  ID : Nat
  dkg : DKG
  receivedValidSharesS : List (Nat × Nat)
  ephemeralKeyPairs : List (Nat × Nat)
  receivedValidPeerPublicKeySharePoints : List (Nat × List Nat)

/-- `MemberPublicKeySharePointsMessage`: sender plus points `A[0..T]`. -/
structure MemberPublicKeySharePointsMessage where
  senderID : Nat
  publicKeySharePoints : List Nat

/-- Loop of `VerifyPublicKeySharePoints`: for each message, the share S
received from its sender is checked against the published points — a missing
share would feed a nil exponent into the modular exponentiation, modelled as
`none`; on failure the sender's revealed key joins the accused map, on
success its points are recorded. -/
def verifyPublicKeySharePointsAux (m : SharingMember) :
    List (Nat × Nat) → List (Nat × List Nat) →
    List MemberPublicKeySharePointsMessage →
    Option (List (Nat × Nat) × List (Nat × List Nat))
  | accused, validPoints, [] => some (accused, validPoints)
  | accused, validPoints, msg :: rest =>
      match lookup msg.senderID m.receivedValidSharesS with
      | none => none
      | some shareS =>
          if isShareValidAgainstPublicKeySharePoints m.dkg m.ID shareS
              msg.publicKeySharePoints then
            verifyPublicKeySharePointsAux m accused
              (mapStore msg.senderID msg.publicKeySharePoints validPoints)
              rest
          else
            verifyPublicKeySharePointsAux m
              (mapStore msg.senderID
                (lookupD msg.senderID m.ephemeralKeyPairs 0) accused)
              validPoints rest

/-- `VerifyPublicKeySharePoints` (Phase 8): returns the accused members'
revealed keys and the updated valid peer points map. -/
def verifyPublicKeySharePoints (m : SharingMember)
    (messages : List MemberPublicKeySharePointsMessage) :
    Option (List (Nat × Nat) × List (Nat × List Nat)) :=
  verifyPublicKeySharePointsAux m [] m.receivedValidPeerPublicKeySharePoints
    messages

theorem verifyPublicKeySharePointsAux_spec (m : SharingMember) :
    ∀ (msgs : List MemberPublicKeySharePointsMessage)
      (accused : List (Nat × Nat)) (validPoints : List (Nat × List Nat)),
      (∀ msg ∈ msgs,
        (lookup msg.senderID m.receivedValidSharesS).isSome = true) →
      (msgs.map MemberPublicKeySharePointsMessage.senderID).Nodup →
      ∃ accusedF validF,
        verifyPublicKeySharePointsAux m accused validPoints msgs
            = some (accusedF, validF)
        ∧ (∀ k, k ∉ msgs.map MemberPublicKeySharePointsMessage.senderID →
            lookup k accusedF = lookup k accused
            ∧ lookup k validF = lookup k validPoints)
        ∧ ∀ msg ∈ msgs, ∃ shareS,
            lookup msg.senderID m.receivedValidSharesS = some shareS
            ∧ (isShareValidAgainstPublicKeySharePoints m.dkg m.ID shareS
                  msg.publicKeySharePoints = true →
                lookup msg.senderID validF = some msg.publicKeySharePoints
                ∧ lookup msg.senderID accusedF = lookup msg.senderID accused)
            ∧ (isShareValidAgainstPublicKeySharePoints m.dkg m.ID shareS
                  msg.publicKeySharePoints = false →
                lookup msg.senderID accusedF
                    = some (lookupD msg.senderID m.ephemeralKeyPairs 0)
                ∧ lookup msg.senderID validF
                    = lookup msg.senderID validPoints) := by
  intro msgs
  induction msgs with
  | nil =>
      intro accused validPoints _ _
      exact ⟨accused, validPoints, rfl, fun k _ => ⟨rfl, rfl⟩,
        fun msg hmsg => absurd hmsg (List.not_mem_nil _)⟩
  | cons msg rest ih =>
      intro accused validPoints hs hnd
      rw [List.map_cons, List.nodup_cons] at hnd
      obtain ⟨hhead, hnd'⟩ := hnd
      obtain ⟨shareS, hshare⟩ := Option.isSome_iff_exists.mp
        (hs msg (List.mem_cons_self _ _))
      have hsrest : ∀ x ∈ rest,
          (lookup x.senderID m.receivedValidSharesS).isSome = true :=
        fun x hx => hs x (List.mem_cons_of_mem _ hx)
      by_cases hvalid : isShareValidAgainstPublicKeySharePoints m.dkg m.ID
          shareS msg.publicKeySharePoints = true
      · obtain ⟨aF, vF, heq, hframe, hspec⟩ := ih accused
          (mapStore msg.senderID msg.publicKeySharePoints validPoints)
          hsrest hnd'
        refine ⟨aF, vF, ?_, ?_, ?_⟩
        · simp only [verifyPublicKeySharePointsAux, hshare, if_pos hvalid]
          exact heq
        · intro k hk
          have hk₁ : k ≠ msg.senderID := by
            intro h; exact hk (by simp [h])
          have hk₂ : k ∉ rest.map MemberPublicKeySharePointsMessage.senderID :=
            fun h => hk (by simp [h])
          obtain ⟨ha, hv⟩ := hframe k hk₂
          refine ⟨ha, ?_⟩
          rw [hv, mapStore_lookup, if_neg (fun h => hk₁ h.symm)]
        · intro msg₂ hmsg₂
          rcases List.mem_cons.mp hmsg₂ with heq₂ | htail
          · subst heq₂
            obtain ⟨ha, hv⟩ := hframe msg₂.senderID hhead
            refine ⟨shareS, hshare, ?_, ?_⟩
            · intro _
              refine ⟨?_, ha⟩
              rw [hv, mapStore_lookup, if_pos rfl]
            · intro hf
              rw [hvalid] at hf
              exact Bool.noConfusion hf
          · obtain ⟨s₂, hs₂, htrue, hfalse⟩ := hspec msg₂ htail
            have hne : msg₂.senderID ≠ msg.senderID := by
              intro h
              exact hhead (h ▸ List.mem_map_of_mem _ htail)
            refine ⟨s₂, hs₂, htrue, ?_⟩
            intro hf
            obtain ⟨ha, hv⟩ := hfalse hf
            refine ⟨ha, ?_⟩
            rw [hv, mapStore_lookup, if_neg (fun h => hne h.symm)]
      · rw [Bool.not_eq_true] at hvalid
        obtain ⟨aF, vF, heq, hframe, hspec⟩ := ih
          (mapStore msg.senderID
            (lookupD msg.senderID m.ephemeralKeyPairs 0) accused)
          validPoints hsrest hnd'
        refine ⟨aF, vF, ?_, ?_, ?_⟩
        · simp only [verifyPublicKeySharePointsAux, hshare, hvalid,
            Bool.false_eq_true, if_false]
          exact heq
        · intro k hk
          have hk₁ : k ≠ msg.senderID := by
            intro h; exact hk (by simp [h])
          have hk₂ : k ∉ rest.map MemberPublicKeySharePointsMessage.senderID :=
            fun h => hk (by simp [h])
          obtain ⟨ha, hv⟩ := hframe k hk₂
          refine ⟨?_, hv⟩
          rw [ha, mapStore_lookup, if_neg (fun h => hk₁ h.symm)]
        · intro msg₂ hmsg₂
          rcases List.mem_cons.mp hmsg₂ with heq₂ | htail
          · subst heq₂
            obtain ⟨ha, hv⟩ := hframe msg₂.senderID hhead
            refine ⟨shareS, hshare, ?_, ?_⟩
            · intro ht
              rw [hvalid] at ht
              exact Bool.noConfusion ht
            · intro _
              refine ⟨?_, hv⟩
              rw [ha, mapStore_lookup, if_pos rfl]
          · obtain ⟨s₂, hs₂, htrue, hfalse⟩ := hspec msg₂ htail
            have hne : msg₂.senderID ≠ msg.senderID := by
              intro h
              exact hhead (h ▸ List.mem_map_of_mem _ htail)
            refine ⟨s₂, hs₂, ?_, hfalse⟩
            intro ht
            obtain ⟨hv, ha⟩ := htrue ht
            refine ⟨hv, ?_⟩
            rw [ha, mapStore_lookup, if_neg (fun h => hne h.symm)]

/-- C10: when `receivedValidSharesS` has an entry for every sender of the
input point messages (one message per sender), `VerifyPublicKeySharePoints`
evaluates the verification predicate on that well-defined share for each
message — the nil-exponent branch is unreachable — and handles each sender
exactly one way: its revealed key joins the accused map when the check fails,
its points are recorded among the valid peer points when it succeeds. -/
theorem verify_public_key_share_points_total_and_partitions
    (m : SharingMember) (messages : List MemberPublicKeySharePointsMessage)
    (hshares : ∀ msg ∈ messages,
        (lookup msg.senderID m.receivedValidSharesS).isSome = true)
    (hsenders : (messages.map MemberPublicKeySharePointsMessage.senderID).Nodup) :
    ∃ accused validPoints,
      verifyPublicKeySharePoints m messages = some (accused, validPoints)
      ∧ ∀ msg ∈ messages, ∃ shareS,
          lookup msg.senderID m.receivedValidSharesS = some shareS
          ∧ (isShareValidAgainstPublicKeySharePoints m.dkg m.ID shareS
                msg.publicKeySharePoints = true →
              lookup msg.senderID validPoints = some msg.publicKeySharePoints
              ∧ lookup msg.senderID accused = none)
          ∧ (isShareValidAgainstPublicKeySharePoints m.dkg m.ID shareS
                msg.publicKeySharePoints = false →
              lookup msg.senderID accused
                  = some (lookupD msg.senderID m.ephemeralKeyPairs 0)
              ∧ lookup msg.senderID validPoints
                  = lookup msg.senderID
                      m.receivedValidPeerPublicKeySharePoints) := by
  obtain ⟨aF, vF, heq, _, hspec⟩ := verifyPublicKeySharePointsAux_spec m
    messages [] m.receivedValidPeerPublicKeySharePoints hshares hsenders
  refine ⟨aF, vF, heq, ?_⟩
  intro msg hmsg
  obtain ⟨shareS, hshare, htrue, hfalse⟩ := hspec msg hmsg
  exact ⟨shareS, hshare, htrue, hfalse⟩

/-- Witness for `verify_public_key_share_points_total_and_partitions`:
member `1` holding share `3` from sender `2`, checking the single message
from `2`. -/
theorem verify_public_key_share_points_total_and_partitions_witness :
    ∃ accused validPoints,
      verifyPublicKeySharePoints ⟨1, ⟨23, 11, 4, 9⟩, [(2, 3)], [(2, 9)], []⟩
          [⟨2, [4]⟩]
          = some (accused, validPoints)
      ∧ ∀ msg ∈ ([⟨2, [4]⟩] : List MemberPublicKeySharePointsMessage),
          ∃ shareS,
          lookup msg.senderID
              (⟨1, ⟨23, 11, 4, 9⟩, [(2, 3)], [(2, 9)], []⟩
                : SharingMember).receivedValidSharesS = some shareS
          ∧ (isShareValidAgainstPublicKeySharePoints ⟨23, 11, 4, 9⟩ 1 shareS
                msg.publicKeySharePoints = true →
              lookup msg.senderID validPoints = some msg.publicKeySharePoints
              ∧ lookup msg.senderID accused = none)
          ∧ (isShareValidAgainstPublicKeySharePoints ⟨23, 11, 4, 9⟩ 1 shareS
                msg.publicKeySharePoints = false →
              lookup msg.senderID accused = some (lookupD msg.senderID
                ([(2, 9)] : List (Nat × Nat)) 0)
              ∧ lookup msg.senderID validPoints
                  = lookup msg.senderID ([] : List (Nat × List Nat))) :=
  verify_public_key_share_points_total_and_partitions
    ⟨1, ⟨23, 11, 4, 9⟩, [(2, 3)], [(2, 9)], []⟩ [⟨2, [4]⟩]
    (by decide) (by decide)

end GJKR
